import Mathlib

/-!
# Verification of the `spoof.py` in-memory limit order book

A shallow embedding of the core of `spoof.py`: the `SimExchange` in-memory
limit order book (insert, match, cancel, top-of-book) and the `LiveExchange`
paper-mode stub.  Python `float` prices and sizes are modelled as `ℚ`;
Python heap objects shared between the book's deques are modelled by a
registry `orders : List Order` of every order ever created, with the two
queues holding indices into that registry (an index plays the role of an
object identity).  Timestamps are omitted: the book's code never reads them
(insertion order is positional, `Order.ts` and the trade `ts` field are
write-only), so they are not observable in any property below.
-/

namespace Spoof

/-- `Side` enum of `spoof.py`. -/
inductive Side where
  | buy
  | sell
deriving DecidableEq, Repr

/-- The `status` literal of an `Order`: one of `"open"`, `"filled"`,
`"cancelled"`. -/
inductive OrderStatus where
  | «open»
  | filled
  | cancelled
deriving DecidableEq, Repr

/-- The `Order` dataclass (without the write-only `ts` field). -/
structure Order where
  id : String
  side : Side
  price : ℚ
  size : ℚ
  filled : ℚ := 0
  status : OrderStatus := .«open»
deriving DecidableEq, Repr

instance : Inhabited Order := ⟨{ id := "", side := .buy, price := 0, size := 0 }⟩

/-- One entry of `SimExchange.trades` (without the write-only `ts` field). -/
structure Trade where
  price : ℚ
  size : ℚ
deriving DecidableEq, Repr

/-- The state of a `SimExchange`: the registry of every order ever created
(`orders`, in creation order — Python heap objects), the two deques of
`self.book` holding registry indices (head first), and the trade log. -/
structure SimExchange where
  orders : List Order := []
  buyQ : List Nat := []
  sellQ : List Nat := []
  trades : List Trade := []
deriving DecidableEq, Repr

/-- The order stored at registry index `i` (dereferencing an object
reference). -/
def ordAt (s : List Order) (i : Nat) : Order := s.getD i default

/-- The comparison lambda of `SimExchange._insert`:
`(lambda p1, p2: p1 > p2) if order.side == Side.BUY else (lambda p1, p2: p1 < p2)`. -/
def cmpPrice (side : Side) (p1 p2 : ℚ) : Bool :=
  match side with
  | .buy => p1 > p2
  | .sell => p1 < p2

/-- `SimExchange._insert`'s scan-and-insert: advance `idx` while
`cmp(q[idx].price, order.price)` holds, then `q.insert(idx, order)` —
i.e. the new index `n` is placed before the first queued order whose price
does not strictly beat `price`. -/
def insertScan (ords : List Order) (side : Side) (n : Nat) (price : ℚ) :
    List Nat → List Nat
  | [] => [n]
  | i :: rest =>
    if cmpPrice side (ordAt ords i).price price then
      i :: insertScan ords side n price rest
    else
      n :: i :: rest

/-- `SimExchange._insert order` on a state whose registry already holds the
new order at index `n`. -/
def insertOrder (s : SimExchange) (side : Side) (n : Nat) (price : ℚ) :
    SimExchange :=
  match side with
  | .buy => { s with buyQ := insertScan s.orders .buy n price s.buyQ }
  | .sell => { s with sellQ := insertScan s.orders .sell n price s.sellQ }

/-- Overwrite the status of the order at registry index `i` (the mutation
`o.status = st` on a heap object). -/
def setStatus (ords : List Order) (i : Nat) (st : OrderStatus) : List Order :=
  ords.set i { ordAt ords i with status := st }

/-- Increment the `filled` field of the order at registry index `i` (the
mutation `o.filled += q` on a heap object). -/
def bumpFill (ords : List Order) (i : Nat) (q : ℚ) : List Order :=
  ords.set i { ordAt ords i with filled := (ordAt ords i).filled + q }

/-- The body of one iteration of the `while` loop of `SimExchange._match`,
after the loop guard has passed, with the head indices `b`, `a` and queue
tails in scope.  The trade append, the two `filled` increments and the two
pop checks are performed sequentially on the registry, exactly as the
Python statements mutate the heap (in particular the `filled >= size`
checks re-read the updated orders). -/
def matchPost (ords : List Order) (b a : Nat) (brest arest : List Nat)
    (tr : List Trade) : SimExchange :=
  let buy := ordAt ords b
  let sell := ordAt ords a
  let qty := min (buy.size - buy.filled) (sell.size - sell.filled)
  let px := (buy.price + sell.price) / 2
  let o1 := bumpFill ords b qty
  let o2 := bumpFill o1 a qty
  let o3 := if (ordAt o2 b).filled ≥ (ordAt o2 b).size then
      setStatus o2 b .filled else o2
  let bq := if (ordAt o2 b).filled ≥ (ordAt o2 b).size then brest
      else b :: brest
  let o4 := if (ordAt o3 a).filled ≥ (ordAt o3 a).size then
      setStatus o3 a .filled else o3
  let aq := if (ordAt o3 a).filled ≥ (ordAt o3 a).size then arest
      else a :: arest
  { orders := o4, buyQ := bq, sellQ := aq, trades := tr ++ [⟨px, qty⟩] }

/-- One iteration of the `while` loop of `SimExchange._match`, or `none` if
the loop guard fails (a queue is empty or `buy.price < sell.price`). -/
def matchStep (s : SimExchange) : Option SimExchange :=
  match s.buyQ, s.sellQ with
  | b :: brest, a :: arest =>
    if (ordAt s.orders b).price < (ordAt s.orders a).price then
      none
    else
      some (matchPost s.orders b a brest arest s.trades)
  | _, _ => none

/-- The `while` loop of `SimExchange._match`, run with explicit fuel.
`place_limit` supplies fuel equal to the total number of resting orders,
which is proved sufficient below (`matchStep` always removes at least one
order from a queue), so this equals the Python unbounded loop. -/
def matchLoop : Nat → SimExchange → SimExchange
  | 0, s => s
  | fuel + 1, s =>
    match matchStep s with
    | none => s
    | some s' => matchLoop fuel s'

/-- Total number of resting orders, `len(book[BUY]) + len(book[SELL])`. -/
def restCount (s : SimExchange) : Nat := s.buyQ.length + s.sellQ.length

/-- `SimExchange.place_limit`: create the order (status `"open"`,
`filled = 0`), `_insert` it, then `_match`.  The returned order id is the
caller's `cid` (`return order.id`); only the state is modelled here. -/
def place_limit (s : SimExchange) (side : Side) (price size : ℚ)
    (cid : String) : SimExchange :=
  let ord : Order := { id := cid, side := side, price := price, size := size }
  let n := s.orders.length
  let s1 : SimExchange := { s with orders := s.orders ++ [ord] }
  let s2 := insertOrder s1 side n price
  matchLoop (restCount s2) s2

/-- The scan of `SimExchange.cancel` over one deque: the first queue
position holding an order with this id and status `"open"`.  Returns the
position in the queue together with the registry index found there. -/
def findCancel (ords : List Order) (oid : String) :
    List Nat → Option (Nat × Nat)
  | [] => none
  | i :: rest =>
    if (ordAt ords i).id = oid ∧ (ordAt ords i).status = .«open» then
      some (0, i)
    else
      match findCancel ords oid rest with
      | some (p, j) => some (p + 1, j)
      | none => none

/-- `SimExchange.cancel`: scan the BUY deque then the SELL deque (the
iteration order of `self.book.values()`); on the first open order with this
id, set `status = "cancelled"` and remove it from its deque
(`q.remove(o)` removes the first element `==` the mutated order, which in
every reachable state is the element at the found position, since every
other queued order still has status `"open"`).  Otherwise do nothing. -/
def cancel (s : SimExchange) (oid : String) : SimExchange :=
  match findCancel s.orders oid s.buyQ with
  | some (p, i) =>
    { s with
      orders := s.orders.set i { ordAt s.orders i with status := .cancelled },
      buyQ := s.buyQ.eraseIdx p }
  | none =>
    match findCancel s.orders oid s.sellQ with
    | some (p, i) =>
      { s with
        orders := s.orders.set i { ordAt s.orders i with status := .cancelled },
        sellQ := s.sellQ.eraseIdx p }
    | none => s

/-- Result of `get_top`. -/
structure Top where
  bid : ℚ
  ask : ℚ
deriving DecidableEq, Repr

/-- `SimExchange.get_top`: the head price of each deque, with the literal
fallbacks `49_999.5` and `50_000.5` when a side is empty.  The Python
method only reads state, which the pure function type records. -/
def get_top (s : SimExchange) : Top :=
  { bid := match s.buyQ with
      | i :: _ => (ordAt s.orders i).price
      | [] => (99999 : ℚ) / 2,
    ask := match s.sellQ with
      | i :: _ => (ordAt s.orders i).price
      | [] => (100001 : ℚ) / 2 }

/-- A single public operation on a `SimExchange`. -/
inductive Op where
  | place (side : Side) (price size : ℚ) (cid : String)
  | cancel (oid : String)

/-- Apply one public operation. -/
def applyOp (s : SimExchange) : Op → SimExchange
  | .place side price size cid => place_limit s side price size cid
  | .cancel oid => cancel s oid

/-- The state after a sequence of public operations on a fresh
`SimExchange()`. -/
def run (ops : List Op) : SimExchange := ops.foldl applyOp {}

/-- A concrete crossed book (one resting BUY at 101, one resting SELL at
100), used to exercise a single iteration of the matching loop. -/
def crossedBook : SimExchange :=
  { orders := [{ id := "b1", side := .buy, price := 101, size := 2 },
               { id := "s1", side := .sell, price := 100, size := 1 }],
    buyQ := [0], sellQ := [1], trades := [] }

/-- An operation with validated input: `place_limit` with positive price
and size (the caller contract of the book), `cancel` always. -/
def PosOp : Op → Prop
  | .place _ price size _ => 0 < price ∧ 0 < size
  | .cancel _ => True

instance : DecidablePred PosOp := fun op => by
  cases op with
  | place side price size cid => exact inferInstanceAs (Decidable (_ ∧ _))
  | cancel oid => exact inferInstanceAs (Decidable True)

/-- Queue priority on prices: on the BUY side higher prices come first, on
the SELL side lower prices come first. -/
def priceRel (side : Side) (p q : ℚ) : Prop :=
  match side with
  | .buy => p ≥ q
  | .sell => p ≤ q

instance (side : Side) (p q : ℚ) : Decidable (priceRel side p q) := by
  cases side with
  | buy => exact inferInstanceAs (Decidable (p ≥ q))
  | sell => exact inferInstanceAs (Decidable (p ≤ q))

/-- A queue of registry indices is price-priority sorted for its side. -/
def QSorted (ords : List Order) (side : Side) (q : List Nat) : Prop :=
  q.Pairwise fun i j => priceRel side (ordAt ords i).price (ordAt ords j).price

instance (ords : List Order) (side : Side) (q : List Nat) :
    Decidable (QSorted ords side q) :=
  inferInstanceAs (Decidable (q.Pairwise _))

/-- Structural well-formedness of a book state: queue entries are valid
registry indices of the right side, each queue has no duplicate entries,
and each queue is price-priority sorted. -/
structure WF (s : SimExchange) : Prop where
  buyIdx : ∀ i ∈ s.buyQ, i < s.orders.length
  sellIdx : ∀ i ∈ s.sellQ, i < s.orders.length
  buySide : ∀ i ∈ s.buyQ, (ordAt s.orders i).side = .buy
  sellSide : ∀ i ∈ s.sellQ, (ordAt s.orders i).side = .sell
  buyNodup : s.buyQ.Nodup
  sellNodup : s.sellQ.Nodup
  buySorted : QSorted s.orders .buy s.buyQ
  sellSorted : QSorted s.orders .sell s.sellQ

/-- The book is not crossed: if both queues are non-empty, the head BUY
price is strictly below the head SELL price. -/
def NoCross (s : SimExchange) : Prop :=
  ∀ b ∈ s.buyQ.head?, ∀ a ∈ s.sellQ.head?,
    (ordAt s.orders b).price < (ordAt s.orders a).price

/-- Total quantity recorded in a trade log. -/
def tradeSum (tr : List Trade) : ℚ := (tr.map Trade.size).sum

/-- Total filled quantity over a registry of orders. -/
def filledSum (ords : List Order) : ℚ := (ords.map Order.filled).sum

/-- The quantity traded by one match iteration with head indices `b`, `a`:
`min(buy.size - buy.filled, sell.size - sell.filled)`. -/
def mq (ords : List Order) (b a : Nat) : ℚ :=
  min ((ordAt ords b).size - (ordAt ords b).filled)
      ((ordAt ords a).size - (ordAt ords a).filled)

/-- Per-order fill/status sanity: positive price and size,
`0 ≤ filled ≤ size`, and `status == "filled"` exactly when
`filled == size`. -/
def OrderOK (o : Order) : Prop :=
  0 < o.price ∧ 0 < o.size ∧ 0 ≤ o.filled ∧ o.filled ≤ o.size ∧
    (o.status = OrderStatus.filled ↔ o.filled = o.size)

instance (o : Order) : Decidable (OrderOK o) :=
  inferInstanceAs (Decidable (_ ∧ _))

/-- Every order ever created satisfies `OrderOK`. -/
def RegOK (s : SimExchange) : Prop := ∀ o ∈ s.orders, OrderOK o

/-- Every queued order has status `"open"`. -/
def QueuedOpen (s : SimExchange) : Prop :=
  ∀ i ∈ s.buyQ ++ s.sellQ, (ordAt s.orders i).status = .«open»

/-- All orders ever created carry pairwise distinct client ids (the spec's
caller contract: `id` is an opaque unique string assigned by the caller). -/
def UniqueIds (s : SimExchange) : Prop := (s.orders.map Order.id).Nodup

instance (s : SimExchange) : Decidable (UniqueIds s) :=
  inferInstanceAs (Decidable (s.orders.map Order.id).Nodup)

/-!
## The `LiveExchange` stub

Python exceptions are modelled by their class together with their message,
and a raising method by an `Except` result.
-/

/-- The exception classes raised by `LiveExchange`. -/
inductive ErrClass where
  | runtimeError
  | notImplementedError
deriving DecidableEq, Repr

/-- A raised Python exception: its class and its message. -/
structure PyError where
  cls : ErrClass
  msg : String
deriving DecidableEq, Repr

/-- The `LiveExchange` stub: credentials and the `paper` flag, which
defaults to `True` in the constructor. -/
structure LiveExchange where
  key : String
  secret : String
  paper : Bool := true
deriving DecidableEq, Repr

/-- The configuration error raised by `LiveExchange.connect` when
`paper` is false. -/
def liveConfigErr : PyError :=
  ⟨.runtimeError,
   "Live trading disabled in this stub. Enable paper mode or implement real API calls at your own risk."⟩

/-- `LiveExchange.connect`: succeeds (only logs) in paper mode, raises
`RuntimeError` otherwise. -/
def LiveExchange.connect (ex : LiveExchange) : Except PyError Unit :=
  if ex.paper then .ok () else .error liveConfigErr

/-- `LiveExchange.get_top`: always raises `NotImplementedError`. -/
def LiveExchange.get_top (ex : LiveExchange) (symbol : String) :
    Except PyError Top :=
  .error ⟨.notImplementedError, "Fill with venue top‑of‑book request"⟩

/-- `LiveExchange.place_limit`: in paper mode logs and returns the client
id; otherwise raises `RuntimeError`. -/
def LiveExchange.place_limit (ex : LiveExchange) (symbol : String)
    (side : Side) (price size : ℚ) (cid : String) : Except PyError String :=
  if ex.paper then .ok cid
  else .error ⟨.runtimeError, "Live order placement not implemented"⟩

/-- `LiveExchange.cancel`: in paper mode logs and returns; otherwise raises
`RuntimeError`. -/
def LiveExchange.cancel (ex : LiveExchange) (order_id : String) :
    Except PyError Unit :=
  if ex.paper then .ok ()
  else .error ⟨.runtimeError, "Live cancel not implemented"⟩

/-- The class of the exception carried by an `Except` result, if any. -/
def errClass {α : Type} : Except PyError α → Option ErrClass
  | .error e => some e.cls
  | .ok _ => none

/-- The message of the exception carried by an `Except` result, if any. -/
def errMsg {α : Type} : Except PyError α → Option String
  | .error e => some e.msg
  | .ok _ => none

/-- `os.getenv(k, dflt)`: the process environment is a lookup list. -/
def getenvDefault (env : List (String × String)) (k dflt : String) : String :=
  (env.lookup k).getD dflt

/-- Python `str.lower()` on the ASCII strings used for env flags, written
with `List.map` so that it evaluates by kernel reduction. -/
def strLower (x : String) : String := String.mk (x.data.map Char.toLower)

/-- The `paper` argument computed by `run_strategy` in live mode:
`os.getenv("EX_PAPER", "true").lower() == "true"`. -/
def paperFromEnv (env : List (String × String)) : Bool :=
  strLower (getenvDefault env "EX_PAPER" "true") == "true"

/-- The `LiveExchange` constructed by `run_strategy` in live mode. -/
def liveFromEnv (env : List (String × String)) : LiveExchange :=
  { key := getenvDefault env "EX_KEY" "",
    secret := getenvDefault env "EX_SECRET" "",
    paper := paperFromEnv env }

/-- `run_strategy` in live mode, up to the trading loop: construct the
exchange from the environment, `await ex.connect()`, and only then enter
the trading loop (abstracted as `loop`, since it never terminates by
itself).  A `connect` exception propagates and the loop is never
entered. -/
def run_strategy_live (env : List (String × String))
    (loop : LiveExchange → Except PyError Unit) : Except PyError Unit := do
  let ex := liveFromEnv env
  ex.connect
  loop ex

/-!
## Basic registry lemmas
-/

theorem ordAt_append_lt (l : List Order) (x : Order) {i : Nat}
    (h : i < l.length) : ordAt (l ++ [x]) i = ordAt l i :=
  List.getD_append l [x] default i h

theorem ordAt_append_len (l : List Order) (x : Order) :
    ordAt (l ++ [x]) l.length = x := by
  unfold ordAt
  rw [List.getD_append_right l [x] default l.length le_rfl, Nat.sub_self]
  rfl

theorem getD_set_self {α : Type} :
    ∀ (l : List α) (i : Nat) (x d : α), i < l.length →
      (l.set i x).getD i d = x
  | [], _, _, _, h => absurd h (by simp)
  | _ :: _, 0, _, _, _ => rfl
  | _ :: l, i + 1, x, d, h =>
    getD_set_self l i x d (Nat.lt_of_succ_lt_succ (by simpa using h))

theorem getD_set_ne {α : Type} :
    ∀ (l : List α) (i j : Nat) (x d : α), i ≠ j →
      (l.set i x).getD j d = l.getD j d
  | [], _, _, _, _, _ => by simp
  | _ :: _, 0, 0, _, _, h => absurd rfl h
  | _ :: _, 0, _ + 1, _, _, _ => rfl
  | _ :: _, _ + 1, 0, _, _, _ => rfl
  | _ :: l, i + 1, j + 1, x, d, h =>
    getD_set_ne l i j x d (fun e => h (by rw [e]))

theorem ordAt_set_self (l : List Order) {i : Nat} (x : Order)
    (h : i < l.length) : ordAt (l.set i x) i = x :=
  getD_set_self l i x default h

theorem ordAt_set_ne (l : List Order) {i j : Nat} (x : Order) (h : i ≠ j) :
    ordAt (l.set i x) j = ordAt l j :=
  getD_set_ne l i j x default h

theorem ordAt_set_proj {β : Type} (f : Order → β) (l : List Order) (i : Nat)
    (u : Order) (hu : f u = f (ordAt l i)) (j : Nat) :
    f (ordAt (l.set i u) j) = f (ordAt l j) := by
  rcases eq_or_ne i j with rfl | hne
  · rcases Nat.lt_or_ge i l.length with h | h
    · rw [ordAt_set_self l u h, hu]
    · rw [List.set_eq_of_length_le h]
  · rw [ordAt_set_ne l u hne]

theorem sum_map_set (f : Order → ℚ) :
    ∀ (l : List Order) (i : Nat) (x : Order), i < l.length →
      ((l.set i x).map f).sum = (l.map f).sum + (f x - f (ordAt l i))
  | [], _, _, h => absurd h (by simp)
  | y :: l, 0, x, _ => by simp [ordAt]; ring
  | y :: l, i + 1, x, h => by
    have ih := sum_map_set f l i x (by simpa using h)
    simp only [List.set_cons_succ, List.map_cons, List.sum_cons, ih, ordAt,
      List.getD_cons_succ]
    ring

/-!
## `setStatus` and `bumpFill` lemmas
-/

theorem length_setStatus (l : List Order) (i : Nat) (st : OrderStatus) :
    (setStatus l i st).length = l.length := by
  simp [setStatus]

theorem ordAt_setStatus_self (l : List Order) {i : Nat} (st : OrderStatus)
    (h : i < l.length) :
    ordAt (setStatus l i st) i = { ordAt l i with status := st } :=
  ordAt_set_self l _ h

theorem ordAt_setStatus_ne (l : List Order) {i j : Nat} (st : OrderStatus)
    (h : i ≠ j) : ordAt (setStatus l i st) j = ordAt l j :=
  ordAt_set_ne l _ h

theorem filled_setStatus (l : List Order) (i : Nat) (st : OrderStatus)
    (j : Nat) : (ordAt (setStatus l i st) j).filled = (ordAt l j).filled := by
  unfold setStatus
  exact ordAt_set_proj Order.filled l i { ordAt l i with status := st } rfl j

theorem price_setStatus (l : List Order) (i : Nat) (st : OrderStatus)
    (j : Nat) : (ordAt (setStatus l i st) j).price = (ordAt l j).price := by
  unfold setStatus
  exact ordAt_set_proj Order.price l i { ordAt l i with status := st } rfl j

theorem side_setStatus (l : List Order) (i : Nat) (st : OrderStatus)
    (j : Nat) : (ordAt (setStatus l i st) j).side = (ordAt l j).side := by
  unfold setStatus
  exact ordAt_set_proj Order.side l i { ordAt l i with status := st } rfl j

theorem size_setStatus (l : List Order) (i : Nat) (st : OrderStatus)
    (j : Nat) : (ordAt (setStatus l i st) j).size = (ordAt l j).size := by
  unfold setStatus
  exact ordAt_set_proj Order.size l i { ordAt l i with status := st } rfl j

theorem filledSum_setStatus (l : List Order) (i : Nat) (st : OrderStatus) :
    filledSum (setStatus l i st) = filledSum l := by
  rcases Nat.lt_or_ge i l.length with h | h
  · unfold filledSum setStatus
    rw [sum_map_set Order.filled l i _ h]
    simp
  · unfold setStatus
    rw [List.set_eq_of_length_le h]

theorem length_bumpFill (l : List Order) (i : Nat) (q : ℚ) :
    (bumpFill l i q).length = l.length := by
  simp [bumpFill]

theorem ordAt_bumpFill_self (l : List Order) {i : Nat} (q : ℚ)
    (h : i < l.length) :
    ordAt (bumpFill l i q) i = { ordAt l i with filled := (ordAt l i).filled + q } :=
  ordAt_set_self l _ h

theorem ordAt_bumpFill_ne (l : List Order) {i j : Nat} (q : ℚ) (h : i ≠ j) :
    ordAt (bumpFill l i q) j = ordAt l j :=
  ordAt_set_ne l _ h

theorem price_bumpFill (l : List Order) (i : Nat) (q : ℚ) (j : Nat) :
    (ordAt (bumpFill l i q) j).price = (ordAt l j).price := by
  unfold bumpFill
  exact ordAt_set_proj Order.price l i
    { ordAt l i with filled := (ordAt l i).filled + q } rfl j

theorem side_bumpFill (l : List Order) (i : Nat) (q : ℚ) (j : Nat) :
    (ordAt (bumpFill l i q) j).side = (ordAt l j).side := by
  unfold bumpFill
  exact ordAt_set_proj Order.side l i
    { ordAt l i with filled := (ordAt l i).filled + q } rfl j

theorem size_bumpFill (l : List Order) (i : Nat) (q : ℚ) (j : Nat) :
    (ordAt (bumpFill l i q) j).size = (ordAt l j).size := by
  unfold bumpFill
  exact ordAt_set_proj Order.size l i
    { ordAt l i with filled := (ordAt l i).filled + q } rfl j

theorem filledSum_bumpFill (l : List Order) {i : Nat} (q : ℚ)
    (h : i < l.length) : filledSum (bumpFill l i q) = filledSum l + q := by
  unfold filledSum bumpFill
  rw [sum_map_set Order.filled l i _ h]
  simp

/-!
## Characterization of one match iteration
-/

theorem matchPost_spec (ords : List Order) (b a : Nat) (brest arest : List Nat)
    (tr : List Trade) (hbl : b < ords.length) (hal : a < ords.length)
    (hne : b ≠ a) :
    (matchPost ords b a brest arest tr).orders.length = ords.length ∧
    (matchPost ords b a brest arest tr).trades
      = tr ++ [⟨((ordAt ords b).price + (ordAt ords a).price) / 2, mq ords b a⟩] ∧
    ordAt (matchPost ords b a brest arest tr).orders b
      = { ordAt ords b with
          filled := (ordAt ords b).filled + mq ords b a,
          status := if (ordAt ords b).filled + mq ords b a ≥ (ordAt ords b).size
            then OrderStatus.filled else (ordAt ords b).status } ∧
    ordAt (matchPost ords b a brest arest tr).orders a
      = { ordAt ords a with
          filled := (ordAt ords a).filled + mq ords b a,
          status := if (ordAt ords a).filled + mq ords b a ≥ (ordAt ords a).size
            then OrderStatus.filled else (ordAt ords a).status } ∧
    (∀ j, j ≠ b → j ≠ a →
      ordAt (matchPost ords b a brest arest tr).orders j = ordAt ords j) ∧
    (matchPost ords b a brest arest tr).buyQ
      = (if (ordAt ords b).filled + mq ords b a ≥ (ordAt ords b).size
          then brest else b :: brest) ∧
    (matchPost ords b a brest arest tr).sellQ
      = (if (ordAt ords a).filled + mq ords b a ≥ (ordAt ords a).size
          then arest else a :: arest) ∧
    filledSum (matchPost ords b a brest arest tr).orders
      = filledSum ords + mq ords b a + mq ords b a := by
  have hab : a ≠ b := hne.symm
  have hal1 : a < (bumpFill ords b (mq ords b a)).length := by
    rw [length_bumpFill]; exact hal
  have ho2b : ordAt (bumpFill (bumpFill ords b (mq ords b a)) a (mq ords b a)) b
      = { ordAt ords b with filled := (ordAt ords b).filled + mq ords b a } := by
    rw [ordAt_bumpFill_ne _ _ hab, ordAt_bumpFill_self _ _ hbl]
  have ho2a : ordAt (bumpFill (bumpFill ords b (mq ords b a)) a (mq ords b a)) a
      = { ordAt ords a with filled := (ordAt ords a).filled + mq ords b a } := by
    rw [ordAt_bumpFill_self _ _ hal1, ordAt_bumpFill_ne _ _ hne]
  have hmq : min ((ordAt ords b).size - (ordAt ords b).filled)
      ((ordAt ords a).size - (ordAt ords a).filled) = mq ords b a := rfl
  simp only [matchPost, hmq]
  set o2 := bumpFill (bumpFill ords b (mq ords b a)) a (mq ords b a) with ho2
  have hbl2 : b < o2.length := by
    rw [ho2, length_bumpFill, length_bumpFill]; exact hbl
  have hal2 : a < o2.length := by
    rw [ho2, length_bumpFill, length_bumpFill]; exact hal
  simp only [ho2b, ho2a]
  have e3a : ∀ (c : Prop) (inst : Decidable c),
      ordAt (if c then setStatus o2 b .filled else o2) a
        = { ordAt ords a with filled := (ordAt ords a).filled + mq ords b a } := by
    intro c inst
    split
    · rw [ordAt_setStatus_ne _ _ hne, ho2a]
    · exact ho2a
  simp only [e3a]
  have hother : ∀ j, j ≠ b → j ≠ a → ordAt o2 j = ordAt ords j := by
    intro j hjb hja
    rw [ho2, ordAt_bumpFill_ne _ _ (Ne.symm hja), ordAt_bumpFill_ne _ _ (Ne.symm hjb)]
  have hsum2 : filledSum o2 = filledSum ords + mq ords b a + mq ords b a := by
    rw [ho2, filledSum_bumpFill _ _ hal1, filledSum_bumpFill _ _ hbl]
  by_cases hcb : (ordAt ords b).filled + mq ords b a ≥ (ordAt ords b).size <;>
    by_cases hca : (ordAt ords a).filled + mq ords b a ≥ (ordAt ords a).size
  · simp only [if_pos hcb, if_pos hca]
    refine ⟨?_, trivial, ?_, ?_, ?_, trivial, trivial, ?_⟩
    · simp only [length_setStatus, ho2, length_bumpFill]
    · rw [ordAt_setStatus_ne _ _ hab, ordAt_setStatus_self _ _ hbl2, ho2b]
    · rw [ordAt_setStatus_self _ _ (by rw [length_setStatus]; exact hal2),
        ordAt_setStatus_ne _ _ hne, ho2a]
    · intro j hjb hja
      rw [ordAt_setStatus_ne _ _ (Ne.symm hja), ordAt_setStatus_ne _ _ (Ne.symm hjb)]
      exact hother j hjb hja
    · rw [filledSum_setStatus, filledSum_setStatus]; exact hsum2
  · simp only [if_pos hcb, if_neg hca]
    refine ⟨?_, trivial, ?_, ?_, ?_, trivial, trivial, ?_⟩
    · simp only [length_setStatus, ho2, length_bumpFill]
    · rw [ordAt_setStatus_self _ _ hbl2, ho2b]
    · rw [ordAt_setStatus_ne _ _ hne, ho2a]
    · intro j hjb hja
      rw [ordAt_setStatus_ne _ _ (Ne.symm hjb)]
      exact hother j hjb hja
    · rw [filledSum_setStatus]; exact hsum2
  · simp only [if_neg hcb, if_pos hca]
    refine ⟨?_, trivial, ?_, ?_, ?_, trivial, trivial, ?_⟩
    · simp only [length_setStatus, ho2, length_bumpFill]
    · rw [ordAt_setStatus_ne _ _ hab, ho2b]
    · rw [ordAt_setStatus_self _ _ hal2, ho2a]
    · intro j hjb hja
      rw [ordAt_setStatus_ne _ _ (Ne.symm hja)]
      exact hother j hjb hja
    · rw [filledSum_setStatus]; exact hsum2
  · simp only [if_neg hcb, if_neg hca]
    exact ⟨by simp only [ho2, length_bumpFill], trivial, ho2b, ho2a, hother,
      trivial, trivial, hsum2⟩

/-!
## The match loop: guard, progress, preservation
-/

theorem matchStep_none_iff (s : SimExchange) :
    matchStep s = none ↔ NoCross s := by
  unfold matchStep NoCross
  rcases hb : s.buyQ with _ | ⟨b, brest⟩ <;>
    rcases ha : s.sellQ with _ | ⟨a, arest⟩ <;> simp [hb, ha]

theorem matchStep_some_elim (s s' : SimExchange)
    (h : matchStep s = some s') :
    ∃ b brest a arest, s.buyQ = b :: brest ∧ s.sellQ = a :: arest ∧
      ¬ (ordAt s.orders b).price < (ordAt s.orders a).price ∧
      s' = matchPost s.orders b a brest arest s.trades := by
  rcases hb : s.buyQ with _ | ⟨b, brest⟩ <;>
    rcases ha : s.sellQ with _ | ⟨a, arest⟩ <;>
    simp only [matchStep, hb, ha] at h
  · exact absurd h (by simp)
  · exact absurd h (by simp)
  · exact absurd h (by simp)
  · by_cases hlt : (ordAt s.orders b).price < (ordAt s.orders a).price
    · rw [if_pos hlt] at h
      exact absurd h (by simp)
    · rw [if_neg hlt] at h
      exact ⟨b, brest, a, arest, rfl, rfl, hlt, (Option.some_inj.mp h).symm⟩

theorem WF.head_ne (s : SimExchange) (hwf : WF s) {b a : Nat}
    {brest arest : List Nat} (hb : s.buyQ = b :: brest)
    (ha : s.sellQ = a :: arest) : b ≠ a := by
  intro e
  have h1 : (ordAt s.orders b).side = .buy :=
    hwf.buySide b (by rw [hb]; exact List.mem_cons_self b brest)
  have h2 : (ordAt s.orders a).side = .sell :=
    hwf.sellSide a (by rw [ha]; exact List.mem_cons_self a arest)
  rw [e, h2] at h1
  exact Side.noConfusion h1

theorem matchStep_preserves (s s' : SimExchange) (hwf : WF s)
    (h : matchStep s = some s') :
    WF s' ∧ restCount s' < restCount s ∧
    s'.orders.length = s.orders.length ∧
    (∀ j, (ordAt s'.orders j).price = (ordAt s.orders j).price) ∧
    (∀ j, (ordAt s'.orders j).side = (ordAt s.orders j).side) ∧
    filledSum s'.orders = filledSum s.orders + mq s.orders
      (s.buyQ.headD 0) (s.sellQ.headD 0) + mq s.orders
      (s.buyQ.headD 0) (s.sellQ.headD 0) := by
  obtain ⟨b, brest, a, arest, hb, ha, hlt, hpost⟩ := matchStep_some_elim s s' h
  have hbl : b < s.orders.length :=
    hwf.buyIdx b (by rw [hb]; exact List.mem_cons_self b brest)
  have hal : a < s.orders.length :=
    hwf.sellIdx a (by rw [ha]; exact List.mem_cons_self a arest)
  have hne : b ≠ a := hwf.head_ne s hb ha
  obtain ⟨sp1, sp2, sp3, sp4, sp5, sp6, sp7, sp8⟩ :=
    matchPost_spec s.orders b a brest arest s.trades hbl hal hne
  rw [← hpost] at sp1 sp2 sp3 sp4 sp5 sp6 sp7 sp8
  have hpr : ∀ j, (ordAt s'.orders j).price = (ordAt s.orders j).price := by
    intro j
    rcases eq_or_ne j b with rfl | hjb
    · rw [sp3]
    · rcases eq_or_ne j a with rfl | hja
      · rw [sp4]
      · rw [sp5 j hjb hja]
  have hsd : ∀ j, (ordAt s'.orders j).side = (ordAt s.orders j).side := by
    intro j
    rcases eq_or_ne j b with rfl | hjb
    · rw [sp3]
    · rcases eq_or_ne j a with rfl | hja
      · rw [sp4]
      · rw [sp5 j hjb hja]
  have hbq : s'.buyQ.Sublist s.buyQ := by
    rw [sp6, hb]
    split
    · exact List.sublist_cons_self b brest
    · exact List.Sublist.refl _
  have haq : s'.sellQ.Sublist s.sellQ := by
    rw [sp7, ha]
    split
    · exact List.sublist_cons_self a arest
    · exact List.Sublist.refl _
  have hwf' : WF s' := by
    refine ⟨?_, ?_, ?_, ?_, ?_, ?_, ?_, ?_⟩
    · intro i hi
      rw [sp1]
      exact hwf.buyIdx i (hbq.subset hi)
    · intro i hi
      rw [sp1]
      exact hwf.sellIdx i (haq.subset hi)
    · intro i hi
      rw [hsd i]
      exact hwf.buySide i (hbq.subset hi)
    · intro i hi
      rw [hsd i]
      exact hwf.sellSide i (haq.subset hi)
    · exact hwf.buyNodup.sublist hbq
    · exact hwf.sellNodup.sublist haq
    · exact ((List.Pairwise.sublist hbq hwf.buySorted).imp
        (fun {i j} hij => by rw [hpr i, hpr j]; exact hij))
    · exact ((List.Pairwise.sublist haq hwf.sellSorted).imp
        (fun {i j} hij => by rw [hpr i, hpr j]; exact hij))
  have hor : (ordAt s.orders b).filled + mq s.orders b a ≥ (ordAt s.orders b).size ∨
      (ordAt s.orders a).filled + mq s.orders b a ≥ (ordAt s.orders a).size := by
    rcases min_choice ((ordAt s.orders b).size - (ordAt s.orders b).filled)
        ((ordAt s.orders a).size - (ordAt s.orders a).filled) with hc | hc
    · left
      unfold mq
      rw [hc]
      linarith
    · right
      unfold mq
      rw [hc]
      linarith
  have hcount : restCount s' < restCount s := by
    unfold restCount
    rw [sp6, sp7, hb, ha]
    split_ifs with h1 h2 h2
    · simp only [List.length_cons]
      omega
    · simp only [List.length_cons]
      omega
    · simp only [List.length_cons]
      omega
    · exact absurd hor (by simp [h1, h2])
  refine ⟨hwf', hcount, sp1, hpr, hsd, ?_⟩
  rw [hb, ha]
  simpa using sp8


theorem matchLoop_id_of_noCross (fuel : Nat) (s : SimExchange)
    (h : NoCross s) : matchLoop fuel s = s := by
  cases fuel with
  | zero => rfl
  | succ n =>
    unfold matchLoop
    rw [(matchStep_none_iff s).mpr h]

theorem matchLoop_wf_noCross :
    ∀ (fuel : Nat) (s : SimExchange), WF s → restCount s ≤ fuel →
      WF (matchLoop fuel s) ∧ NoCross (matchLoop fuel s)
  | 0, s, hwf, hle => by
    have h0 : s.buyQ.length + s.sellQ.length = 0 := Nat.le_zero.mp hle
    have hb : s.buyQ = [] := List.length_eq_zero.mp (by omega)
    have hml : matchLoop 0 s = s := rfl
    rw [hml]
    refine ⟨hwf, ?_⟩
    intro b hbm a ham
    rw [hb] at hbm
    simp at hbm
  | fuel + 1, s, hwf, hle => by
    cases hms : matchStep s with
    | none =>
      have hnc : NoCross s := (matchStep_none_iff s).mp hms
      rw [matchLoop_id_of_noCross (fuel + 1) s hnc]
      exact ⟨hwf, hnc⟩
    | some s1 =>
      obtain ⟨hwf1, hlt, -, -, -, -⟩ := matchStep_preserves s s1 hwf hms
      have heq : matchLoop (fuel + 1) s = matchLoop fuel s1 := by
        simp only [matchLoop, hms]
      rw [heq]
      exact matchLoop_wf_noCross fuel s1 hwf1 (by unfold restCount at *; omega)

theorem tradeSum_append (tr : List Trade) (t : Trade) :
    tradeSum (tr ++ [t]) = tradeSum tr + t.size := by
  simp [tradeSum]

theorem filledSum_append (l : List Order) (o : Order) :
    filledSum (l ++ [o]) = filledSum l + o.filled := by
  simp [filledSum]

theorem matchStep_conservation (s s1 : SimExchange) (hwf : WF s)
    (h : matchStep s = some s1) :
    2 * tradeSum s1.trades - filledSum s1.orders
      = 2 * tradeSum s.trades - filledSum s.orders := by
  obtain ⟨b, brest, a, arest, hb, ha, hlt, hpost⟩ := matchStep_some_elim s s1 h
  have hbl : b < s.orders.length :=
    hwf.buyIdx b (by rw [hb]; exact List.mem_cons_self b brest)
  have hal : a < s.orders.length :=
    hwf.sellIdx a (by rw [ha]; exact List.mem_cons_self a arest)
  have hne : b ≠ a := hwf.head_ne s hb ha
  obtain ⟨-, sp2, -, -, -, -, -, sp8⟩ :=
    matchPost_spec s.orders b a brest arest s.trades hbl hal hne
  rw [← hpost] at sp2 sp8
  rw [sp2, sp8, tradeSum_append]
  ring

theorem matchLoop_conservation :
    ∀ (fuel : Nat) (s : SimExchange), WF s →
      2 * tradeSum (matchLoop fuel s).trades - filledSum (matchLoop fuel s).orders
        = 2 * tradeSum s.trades - filledSum s.orders
  | 0, s, _ => rfl
  | fuel + 1, s, hwf => by
    cases hms : matchStep s with
    | none =>
      have heq : matchLoop (fuel + 1) s = s := by
        simp only [matchLoop, hms]
      rw [heq]
    | some s1 =>
      obtain ⟨hwf1, -, -, -, -, -⟩ := matchStep_preserves s s1 hwf hms
      have hstep := matchStep_conservation s s1 hwf hms
      have heq : matchLoop (fuel + 1) s = matchLoop fuel s1 := by
        simp only [matchLoop, hms]
      rw [heq, matchLoop_conservation fuel s1 hwf1, hstep]


/-!
## Insertion lemmas
-/

theorem mem_insertScan (ords : List Order) (side : Side) (n : Nat)
    (price : ℚ) : ∀ (q : List Nat) (j : Nat),
      j ∈ insertScan ords side n price q ↔ j = n ∨ j ∈ q
  | [], j => by simp [insertScan]
  | i :: rest, j => by
    unfold insertScan
    split
    · rw [List.mem_cons, mem_insertScan ords side n price rest j,
        List.mem_cons]
      exact or_left_comm
    · exact List.mem_cons

theorem cmpPrice_true {side : Side} {p q : ℚ}
    (h : cmpPrice side p q = true) : priceRel side p q := by
  cases side <;> simp [cmpPrice] at h <;> simp [priceRel] <;> linarith

theorem cmpPrice_false {side : Side} {p q : ℚ}
    (h : cmpPrice side p q = false) : priceRel side q p := by
  cases side <;> simp [cmpPrice] at h <;> simp [priceRel] <;> linarith

theorem priceRel_trans {side : Side} {p q r : ℚ} (h1 : priceRel side p q)
    (h2 : priceRel side q r) : priceRel side p r := by
  cases side <;> simp [priceRel] at h1 h2 ⊢ <;> linarith

theorem priceRel_refl (side : Side) (p : ℚ) : priceRel side p p := by
  cases side <;> simp [priceRel]

theorem QSorted_insertScan (ords : List Order) (side : Side) (n : Nat)
    (price : ℚ) (hn : (ordAt ords n).price = price) :
    ∀ (q : List Nat), QSorted ords side q →
      QSorted ords side (insertScan ords side n price q)
  | [], _ => by
    unfold insertScan QSorted
    exact List.pairwise_singleton _ n
  | i :: rest, hs => by
    unfold QSorted at hs ⊢
    obtain ⟨hhead, htail⟩ := List.pairwise_cons.mp hs
    unfold insertScan
    split
    case isTrue hc =>
      refine List.pairwise_cons.mpr ⟨?_, QSorted_insertScan ords side n price hn rest htail⟩
      intro j hj
      rcases (mem_insertScan ords side n price rest j).mp hj with rfl | hjr
      · rw [hn]
        exact cmpPrice_true hc
      · exact hhead j hjr
    case isFalse hc =>
      have hcf : cmpPrice side (ordAt ords i).price price = false := by
        simpa using hc
      refine List.pairwise_cons.mpr ⟨?_, hs⟩
      intro j hj
      rcases List.mem_cons.mp hj with rfl | hjr
      · rw [hn]
        exact cmpPrice_false hcf
      · exact priceRel_trans (by rw [hn]; exact cmpPrice_false hcf) (hhead j hjr)

theorem insertScan_eq (ords : List Order) (side : Side) (n : Nat) (price : ℚ) :
    ∀ q : List Nat, insertScan ords side n price q
      = q.takeWhile (fun i => cmpPrice side (ordAt ords i).price price)
        ++ n :: q.dropWhile (fun i => cmpPrice side (ordAt ords i).price price)
  | [] => rfl
  | i :: rest => by
    unfold insertScan
    by_cases hc : cmpPrice side (ordAt ords i).price price = true
    · rw [if_pos hc, insertScan_eq ords side n price rest]
      simp [List.takeWhile_cons, List.dropWhile_cons, hc]
    · rw [if_neg hc]
      simp only [Bool.not_eq_true] at hc
      simp [List.takeWhile_cons, List.dropWhile_cons, hc]

theorem nodup_insertScan (ords : List Order) (side : Side) (n : Nat)
    (price : ℚ) (q : List Nat) (hq : q.Nodup) (hn : n ∉ q) :
    (insertScan ords side n price q).Nodup := by
  rw [insertScan_eq]
  have hperm : (q.takeWhile (fun i => cmpPrice side (ordAt ords i).price price)
      ++ n :: q.dropWhile (fun i => cmpPrice side (ordAt ords i).price price)).Perm
      (n :: q) := by
    refine List.perm_middle.trans ?_
    rw [List.takeWhile_append_dropWhile _ _]
  rw [hperm.nodup_iff]
  exact List.nodup_cons.mpr ⟨hn, hq⟩

/-!
## `place_limit` preservation
-/

theorem orders_insertOrder (s : SimExchange) (side : Side) (n : Nat)
    (price : ℚ) : (insertOrder s side n price).orders = s.orders := by
  cases side <;> rfl

theorem trades_insertOrder (s : SimExchange) (side : Side) (n : Nat)
    (price : ℚ) : (insertOrder s side n price).trades = s.trades := by
  cases side <;> rfl

theorem WF_place_aux (s : SimExchange) (side : Side) (price size : ℚ)
    (cid : String) (hwf : WF s) :
    WF (insertOrder
      { s with orders := s.orders ++ [{ id := cid, side := side, price := price, size := size }] }
      side s.orders.length price) := by
  set ord : Order := { id := cid, side := side, price := price, size := size } with hord
  have hlen : (s.orders ++ [ord]).length = s.orders.length + 1 := by simp
  have hprev : ∀ i ∈ s.buyQ ++ s.sellQ, ordAt (s.orders ++ [ord]) i = ordAt s.orders i := by
    intro i hi
    rcases List.mem_append.mp hi with hib | his
    · exact ordAt_append_lt s.orders ord (hwf.buyIdx i hib)
    · exact ordAt_append_lt s.orders ord (hwf.sellIdx i his)
  have hnew : ordAt (s.orders ++ [ord]) s.orders.length = ord :=
    ordAt_append_len s.orders ord
  have hsortb : QSorted (s.orders ++ [ord]) .buy s.buyQ :=
    hwf.buySorted.imp_of_mem (fun {i j} hi hj hij => by
      rw [hprev i (List.mem_append.mpr (Or.inl hi)),
        hprev j (List.mem_append.mpr (Or.inl hj))]
      exact hij)
  have hsorts : QSorted (s.orders ++ [ord]) .sell s.sellQ :=
    hwf.sellSorted.imp_of_mem (fun {i j} hi hj hij => by
      rw [hprev i (List.mem_append.mpr (Or.inr hi)),
        hprev j (List.mem_append.mpr (Or.inr hj))]
      exact hij)
  have hfreshb : s.orders.length ∉ s.buyQ := fun hmem =>
    absurd (hwf.buyIdx _ hmem) (by omega)
  have hfreshs : s.orders.length ∉ s.sellQ := fun hmem =>
    absurd (hwf.sellIdx _ hmem) (by omega)
  cases side with
  | buy =>
    show WF { orders := s.orders ++ [ord],
              buyQ := insertScan (s.orders ++ [ord]) .buy s.orders.length price s.buyQ,
              sellQ := s.sellQ, trades := s.trades }
    refine ⟨?_, ?_, ?_, ?_, ?_, ?_, ?_, ?_⟩
    · intro i hi
      have hi2 : i ∈ insertScan (s.orders ++ [ord]) .buy s.orders.length price s.buyQ := hi
      rcases (mem_insertScan _ _ _ _ _ _).mp hi2 with rfl | hold
      · show s.orders.length < (s.orders ++ [ord]).length
        rw [hlen]
        omega
      · show i < (s.orders ++ [ord]).length
        rw [hlen]
        exact Nat.lt_succ_of_lt (hwf.buyIdx i hold)
    · intro i hi
      show i < (s.orders ++ [ord]).length
      rw [hlen]
      exact Nat.lt_succ_of_lt (hwf.sellIdx i hi)
    · intro i hi
      have hi2 : i ∈ insertScan (s.orders ++ [ord]) .buy s.orders.length price s.buyQ := hi
      rcases (mem_insertScan _ _ _ _ _ _).mp hi2 with rfl | hold
      · show (ordAt (s.orders ++ [ord]) s.orders.length).side = Side.buy
        rw [hnew]
      · show (ordAt (s.orders ++ [ord]) i).side = Side.buy
        rw [hprev i (List.mem_append.mpr (Or.inl hold))]
        exact hwf.buySide i hold
    · intro i hi
      show (ordAt (s.orders ++ [ord]) i).side = Side.sell
      rw [hprev i (List.mem_append.mpr (Or.inr hi))]
      exact hwf.sellSide i hi
    · exact nodup_insertScan _ _ _ _ _ hwf.buyNodup hfreshb
    · exact hwf.sellNodup
    · exact QSorted_insertScan _ _ _ _ (by rw [hnew]) _ hsortb
    · exact hsorts
  | sell =>
    show WF { orders := s.orders ++ [ord],
              buyQ := s.buyQ, trades := s.trades,
              sellQ := insertScan (s.orders ++ [ord]) .sell s.orders.length price s.sellQ }
    refine ⟨?_, ?_, ?_, ?_, ?_, ?_, ?_, ?_⟩
    · intro i hi
      show i < (s.orders ++ [ord]).length
      rw [hlen]
      exact Nat.lt_succ_of_lt (hwf.buyIdx i hi)
    · intro i hi
      have hi2 : i ∈ insertScan (s.orders ++ [ord]) .sell s.orders.length price s.sellQ := hi
      rcases (mem_insertScan _ _ _ _ _ _).mp hi2 with rfl | hold
      · show s.orders.length < (s.orders ++ [ord]).length
        rw [hlen]
        omega
      · show i < (s.orders ++ [ord]).length
        rw [hlen]
        exact Nat.lt_succ_of_lt (hwf.sellIdx i hold)
    · intro i hi
      show (ordAt (s.orders ++ [ord]) i).side = Side.buy
      rw [hprev i (List.mem_append.mpr (Or.inl hi))]
      exact hwf.buySide i hi
    · intro i hi
      have hi2 : i ∈ insertScan (s.orders ++ [ord]) .sell s.orders.length price s.sellQ := hi
      rcases (mem_insertScan _ _ _ _ _ _).mp hi2 with rfl | hold
      · show (ordAt (s.orders ++ [ord]) s.orders.length).side = Side.sell
        rw [hnew]
      · show (ordAt (s.orders ++ [ord]) i).side = Side.sell
        rw [hprev i (List.mem_append.mpr (Or.inr hold))]
        exact hwf.sellSide i hold
    · exact hwf.buyNodup
    · exact nodup_insertScan _ _ _ _ _ hwf.sellNodup hfreshs
    · exact hsortb
    · exact QSorted_insertScan _ _ _ _ (by rw [hnew]) _ hsorts


theorem place_limit_spec (s : SimExchange) (side : Side) (price size : ℚ)
    (cid : String) (hwf : WF s) :
    WF (place_limit s side price size cid) ∧
    NoCross (place_limit s side price size cid) ∧
    2 * tradeSum (place_limit s side price size cid).trades
      - filledSum (place_limit s side price size cid).orders
      = 2 * tradeSum s.trades - filledSum s.orders := by
  have hwf2 := WF_place_aux s side price size cid hwf
  set s2 := insertOrder
      { s with orders := s.orders ++
          [{ id := cid, side := side, price := price, size := size }] }
      side s.orders.length price with hs2
  have hpl : place_limit s side price size cid = matchLoop (restCount s2) s2 := rfl
  obtain ⟨hwfL, hncL⟩ := matchLoop_wf_noCross (restCount s2) s2 hwf2 le_rfl
  have hconsL := matchLoop_conservation (restCount s2) s2 hwf2
  have htr2 : s2.trades = s.trades := by rw [hs2, trades_insertOrder]
  have hor2 : s2.orders = s.orders ++
      [{ id := cid, side := side, price := price, size := size }] := by
    rw [hs2, orders_insertOrder]
  refine ⟨by rw [hpl]; exact hwfL, by rw [hpl]; exact hncL, ?_⟩
  rw [hpl, hconsL, htr2, hor2, filledSum_append]
  norm_num

/-!
## `cancel` lemmas
-/

theorem findCancel_none (ords : List Order) (oid : String) :
    ∀ q : List Nat,
      (∀ i ∈ q, ¬((ordAt ords i).id = oid ∧ (ordAt ords i).status = .«open»)) →
      findCancel ords oid q = none
  | [], _ => rfl
  | i :: rest, h => by
    unfold findCancel
    rw [if_neg (h i (List.mem_cons_self i rest)),
      findCancel_none ords oid rest (fun j hj => h j (List.mem_cons_of_mem i hj))]

theorem findCancel_some_elim (ords : List Order) (oid : String) :
    ∀ (q : List Nat) (p i : Nat), findCancel ords oid q = some (p, i) →
      q.get? p = some i ∧ (ordAt ords i).id = oid ∧
        (ordAt ords i).status = .«open»
  | [], p, i, h => by simp [findCancel] at h
  | j :: rest, p, i, h => by
    unfold findCancel at h
    split at h
    case isTrue hc =>
      have hpi : (0, j) = (p, i) := Option.some_inj.mp h
      obtain ⟨hp, hj⟩ := Prod.mk.injEq 0 j p i ▸ hpi
      subst hp
      subst hj
      exact ⟨rfl, hc.1, hc.2⟩
    case isFalse hc =>
      cases hfc : findCancel ords oid rest with
      | none =>
        rw [hfc] at h
        exact absurd h (by simp)
      | some pj =>
        obtain ⟨p1, i1⟩ := pj
        rw [hfc] at h
        have hpi : (p1 + 1, i1) = (p, i) := Option.some_inj.mp h
        obtain ⟨hp, hj⟩ := Prod.mk.injEq (p1 + 1) i1 p i ▸ hpi
        subst hp
        subst hj
        obtain ⟨hg, hid, hst⟩ := findCancel_some_elim ords oid rest p1 i1 hfc
        exact ⟨hg, hid, hst⟩

theorem head_best (ords : List Order) (side : Side) (q : List Nat)
    (hs : QSorted ords side q) {bh : Nat} (hh : q.head? = some bh) {j : Nat}
    (hj : j ∈ q) :
    priceRel side (ordAt ords bh).price (ordAt ords j).price := by
  cases q with
  | nil => simp at hh
  | cons h0 rest =>
    have hbh : h0 = bh := by simpa using hh
    subst hbh
    rcases List.mem_cons.mp hj with rfl | hjr
    · exact priceRel_refl side _
    · exact (List.pairwise_cons.mp hs).1 j hjr

theorem head?_eraseIdx (q : List Nat) (p : Nat) :
    (q.eraseIdx p).head? = if p = 0 then q.tail.head? else q.head? := by
  cases q with
  | nil => simp [List.eraseIdx]
  | cons h0 rest =>
    cases p with
    | zero => simp [List.eraseIdx]
    | succ p1 => simp [List.eraseIdx]

theorem cancel_found_buy (s : SimExchange) (oid : String) (p i : Nat)
    (hfb : findCancel s.orders oid s.buyQ = some (p, i)) :
    cancel s oid = { s with orders := setStatus s.orders i .cancelled,
                            buyQ := s.buyQ.eraseIdx p } := by
  unfold cancel
  rw [hfb]
  rfl

theorem cancel_found_sell (s : SimExchange) (oid : String) (p i : Nat)
    (hfb : findCancel s.orders oid s.buyQ = none)
    (hfs : findCancel s.orders oid s.sellQ = some (p, i)) :
    cancel s oid = { s with orders := setStatus s.orders i .cancelled,
                            sellQ := s.sellQ.eraseIdx p } := by
  unfold cancel
  rw [hfb, hfs]
  rfl

theorem cancel_not_found (s : SimExchange) (oid : String)
    (hfb : findCancel s.orders oid s.buyQ = none)
    (hfs : findCancel s.orders oid s.sellQ = none) :
    cancel s oid = s := by
  unfold cancel
  rw [hfb, hfs]

theorem cancel_buy_state (s : SimExchange) (p i : Nat) (hwf : WF s)
    (hnc : NoCross s) :
    WF { s with orders := setStatus s.orders i .cancelled,
                buyQ := s.buyQ.eraseIdx p } ∧
    NoCross { s with orders := setStatus s.orders i .cancelled,
                     buyQ := s.buyQ.eraseIdx p } := by
  have hubq : (s.buyQ.eraseIdx p).Sublist s.buyQ := List.eraseIdx_sublist s.buyQ p
  constructor
  · refine ⟨?_, ?_, ?_, ?_, ?_, ?_, ?_, ?_⟩
    · intro k hk
      show k < (setStatus s.orders i .cancelled).length
      rw [length_setStatus]
      exact hwf.buyIdx k (hubq.subset hk)
    · intro k hk
      show k < (setStatus s.orders i .cancelled).length
      rw [length_setStatus]
      exact hwf.sellIdx k hk
    · intro k hk
      show (ordAt (setStatus s.orders i .cancelled) k).side = Side.buy
      rw [side_setStatus]
      exact hwf.buySide k (hubq.subset hk)
    · intro k hk
      show (ordAt (setStatus s.orders i .cancelled) k).side = Side.sell
      rw [side_setStatus]
      exact hwf.sellSide k hk
    · exact hwf.buyNodup.sublist hubq
    · exact hwf.sellNodup
    · refine (List.Pairwise.sublist hubq hwf.buySorted).imp ?_
      intro x y hxy
      show priceRel .buy (ordAt (setStatus s.orders i .cancelled) x).price
        (ordAt (setStatus s.orders i .cancelled) y).price
      rw [price_setStatus, price_setStatus]
      exact hxy
    · refine hwf.sellSorted.imp ?_
      intro x y hxy
      show priceRel .sell (ordAt (setStatus s.orders i .cancelled) x).price
        (ordAt (setStatus s.orders i .cancelled) y).price
      rw [price_setStatus, price_setStatus]
      exact hxy
  · intro b hbm a ham
    show (ordAt (setStatus s.orders i .cancelled) b).price
      < (ordAt (setStatus s.orders i .cancelled) a).price
    rw [price_setStatus, price_setStatus]
    have hb2 : b ∈ s.buyQ := hubq.subset (List.mem_of_mem_head? hbm)
    cases hbh : s.buyQ.head? with
    | none =>
      rw [List.head?_eq_none_iff] at hbh
      rw [hbh] at hb2
      simp at hb2
    | some bh =>
      have hdom : priceRel .buy (ordAt s.orders bh).price (ordAt s.orders b).price :=
        head_best s.orders .buy s.buyQ hwf.buySorted hbh hb2
      have hcross := hnc bh hbh a ham
      have hle : (ordAt s.orders b).price ≤ (ordAt s.orders bh).price := hdom
      linarith

theorem cancel_sell_state (s : SimExchange) (p i : Nat) (hwf : WF s)
    (hnc : NoCross s) :
    WF { s with orders := setStatus s.orders i .cancelled,
                sellQ := s.sellQ.eraseIdx p } ∧
    NoCross { s with orders := setStatus s.orders i .cancelled,
                     sellQ := s.sellQ.eraseIdx p } := by
  have husq : (s.sellQ.eraseIdx p).Sublist s.sellQ := List.eraseIdx_sublist s.sellQ p
  constructor
  · refine ⟨?_, ?_, ?_, ?_, ?_, ?_, ?_, ?_⟩
    · intro k hk
      show k < (setStatus s.orders i .cancelled).length
      rw [length_setStatus]
      exact hwf.buyIdx k hk
    · intro k hk
      show k < (setStatus s.orders i .cancelled).length
      rw [length_setStatus]
      exact hwf.sellIdx k (husq.subset hk)
    · intro k hk
      show (ordAt (setStatus s.orders i .cancelled) k).side = Side.buy
      rw [side_setStatus]
      exact hwf.buySide k hk
    · intro k hk
      show (ordAt (setStatus s.orders i .cancelled) k).side = Side.sell
      rw [side_setStatus]
      exact hwf.sellSide k (husq.subset hk)
    · exact hwf.buyNodup
    · exact hwf.sellNodup.sublist husq
    · refine hwf.buySorted.imp ?_
      intro x y hxy
      show priceRel .buy (ordAt (setStatus s.orders i .cancelled) x).price
        (ordAt (setStatus s.orders i .cancelled) y).price
      rw [price_setStatus, price_setStatus]
      exact hxy
    · refine (List.Pairwise.sublist husq hwf.sellSorted).imp ?_
      intro x y hxy
      show priceRel .sell (ordAt (setStatus s.orders i .cancelled) x).price
        (ordAt (setStatus s.orders i .cancelled) y).price
      rw [price_setStatus, price_setStatus]
      exact hxy
  · intro b hbm a ham
    show (ordAt (setStatus s.orders i .cancelled) b).price
      < (ordAt (setStatus s.orders i .cancelled) a).price
    rw [price_setStatus, price_setStatus]
    have ha2 : a ∈ s.sellQ := husq.subset (List.mem_of_mem_head? ham)
    cases hah : s.sellQ.head? with
    | none =>
      rw [List.head?_eq_none_iff] at hah
      rw [hah] at ha2
      simp at ha2
    | some ah =>
      have hdom : priceRel .sell (ordAt s.orders ah).price (ordAt s.orders a).price :=
        head_best s.orders .sell s.sellQ hwf.sellSorted hah ha2
      have hcross := hnc b hbm ah hah
      have hle : (ordAt s.orders ah).price ≤ (ordAt s.orders a).price := hdom
      linarith

theorem cancel_preserves (s : SimExchange) (oid : String) (hwf : WF s)
    (hnc : NoCross s) :
    WF (cancel s oid) ∧ NoCross (cancel s oid) ∧
    (cancel s oid).trades = s.trades ∧
    filledSum (cancel s oid).orders = filledSum s.orders := by
  cases hfb : findCancel s.orders oid s.buyQ with
  | some pi =>
    obtain ⟨p, i⟩ := pi
    rw [cancel_found_buy s oid p i hfb]
    obtain ⟨h1, h2⟩ := cancel_buy_state s p i hwf hnc
    exact ⟨h1, h2, rfl, filledSum_setStatus s.orders i .cancelled⟩
  | none =>
    cases hfs : findCancel s.orders oid s.sellQ with
    | some pi =>
      obtain ⟨p, i⟩ := pi
      rw [cancel_found_sell s oid p i hfb hfs]
      obtain ⟨h1, h2⟩ := cancel_sell_state s p i hwf hnc
      exact ⟨h1, h2, rfl, filledSum_setStatus s.orders i .cancelled⟩
    | none =>
      rw [cancel_not_found s oid hfb hfs]
      exact ⟨hwf, hnc, rfl, rfl⟩


/-!
## Reachable-state invariants
-/

theorem foldl_inv (P : SimExchange → Prop)
    (hstep : ∀ s op, P s → P (applyOp s op)) :
    ∀ (ops : List Op) (s : SimExchange), P s → P (ops.foldl applyOp s)
  | [], _, h => h
  | op :: rest, s, h =>
    foldl_inv P hstep rest (applyOp s op) (hstep s op h)

theorem foldl_inv_pos (P : SimExchange → Prop)
    (hstep : ∀ s op, PosOp op → P s → P (applyOp s op)) :
    ∀ (ops : List Op) (s : SimExchange), (∀ op ∈ ops, PosOp op) → P s →
      P (ops.foldl applyOp s)
  | [], _, _, h => h
  | op :: rest, s, hpos, h =>
    foldl_inv_pos P hstep rest (applyOp s op)
      (fun o ho => hpos o (List.mem_cons_of_mem op ho))
      (hstep s op (hpos op (List.mem_cons_self op rest)) h)

theorem WF_empty : WF ({} : SimExchange) := by
  refine ⟨?_, ?_, ?_, ?_, ?_, ?_, ?_, ?_⟩ <;>
    first
      | (intro i hi; exact absurd hi (by simp))
      | exact List.nodup_nil
      | exact List.Pairwise.nil

theorem NoCross_empty : NoCross ({} : SimExchange) := by
  intro b hb a ha
  exact absurd hb (by simp)

theorem run_inv0 (ops : List Op) :
    WF (run ops) ∧ NoCross (run ops) ∧
    2 * tradeSum (run ops).trades = filledSum (run ops).orders := by
  refine foldl_inv
    (fun s => WF s ∧ NoCross s ∧ 2 * tradeSum s.trades = filledSum s.orders)
    ?_ ops {} ⟨WF_empty, NoCross_empty, by simp [tradeSum, filledSum]⟩
  rintro s op ⟨hwf, hnc, hcons⟩
  cases op with
  | place side price size cid =>
    obtain ⟨h1, h2, h3⟩ := place_limit_spec s side price size cid hwf
    exact ⟨h1, h2, by unfold applyOp; linarith [h3]⟩
  | cancel oid =>
    obtain ⟨h1, h2, h3, h4⟩ := cancel_preserves s oid hwf hnc
    refine ⟨h1, h2, ?_⟩
    unfold applyOp
    rw [h3, h4]
    exact hcons


/-!
## Per-order invariants under validated input
-/

theorem ordAt_mem (l : List Order) {i : Nat} (h : i < l.length) :
    ordAt l i ∈ l := by
  rw [ordAt, List.getD_eq_getElem l default h]
  exact List.getElem_mem h

theorem regOK_index (s : SimExchange) (hro : RegOK s) {j : Nat}
    (hj : j < s.orders.length) : OrderOK (ordAt s.orders j) :=
  hro _ (ordAt_mem s.orders hj)

theorem regOK_of_index (s : SimExchange)
    (h : ∀ j, j < s.orders.length → OrderOK (ordAt s.orders j)) : RegOK s := by
  intro o ho
  obtain ⟨j, hj, hoe⟩ := List.mem_iff_getElem.mp ho
  have hok := h j hj
  rwa [ordAt, List.getD_eq_getElem _ _ hj, hoe] at hok

theorem matchStep_ok (s s1 : SimExchange) (hwf : WF s) (hro : RegOK s)
    (hqo : QueuedOpen s) (h : matchStep s = some s1) :
    RegOK s1 ∧ QueuedOpen s1 := by
  obtain ⟨b, brest, a, arest, hb, ha, hlt, hpost⟩ := matchStep_some_elim s s1 h
  have hbl : b < s.orders.length :=
    hwf.buyIdx b (by rw [hb]; exact List.mem_cons_self b brest)
  have hal : a < s.orders.length :=
    hwf.sellIdx a (by rw [ha]; exact List.mem_cons_self a arest)
  have hne : b ≠ a := hwf.head_ne s hb ha
  obtain ⟨sp1, sp2, sp3, sp4, sp5, sp6, sp7, sp8⟩ :=
    matchPost_spec s.orders b a brest arest s.trades hbl hal hne
  rw [← hpost] at sp1 sp2 sp3 sp4 sp5 sp6 sp7 sp8
  obtain ⟨pB1, pB2, pB3, pB4, pB5⟩ := regOK_index s hro hbl
  obtain ⟨pA1, pA2, pA3, pA4, pA5⟩ := regOK_index s hro hal
  have hq0 : 0 ≤ mq s.orders b a :=
    le_min (by linarith) (by linarith)
  have hqb : mq s.orders b a
      ≤ (ordAt s.orders b).size - (ordAt s.orders b).filled := min_le_left _ _
  have hqa : mq s.orders b a
      ≤ (ordAt s.orders a).size - (ordAt s.orders a).filled := min_le_right _ _
  have hsub_b : s1.buyQ.Sublist s.buyQ := by
    rw [sp6, hb]
    split
    · exact List.sublist_cons_self b brest
    · exact List.Sublist.refl _
  have hsub_a : s1.sellQ.Sublist s.sellQ := by
    rw [sp7, ha]
    split
    · exact List.sublist_cons_self a arest
    · exact List.Sublist.refl _
  constructor
  · refine regOK_of_index _ ?_
    intro j hj
    rw [sp1] at hj
    rcases eq_or_ne j b with rfl | hjb
    · have e3p : (ordAt s1.orders j).price = (ordAt s.orders j).price := by rw [sp3]
      have e3sz : (ordAt s1.orders j).size = (ordAt s.orders j).size := by rw [sp3]
      have e3f : (ordAt s1.orders j).filled
          = (ordAt s.orders j).filled + mq s.orders j a := by rw [sp3]
      have e3st : (ordAt s1.orders j).status
          = (if (ordAt s.orders j).filled + mq s.orders j a ≥ (ordAt s.orders j).size
             then OrderStatus.filled else (ordAt s.orders j).status) := by rw [sp3]
      refine ⟨by rw [e3p]; exact pB1, by rw [e3sz]; exact pB2,
        by rw [e3f]; linarith, by rw [e3f, e3sz]; linarith, ?_⟩
      rw [e3st, e3f, e3sz]
      by_cases hcb : (ordAt s.orders j).filled + mq s.orders j a
          ≥ (ordAt s.orders j).size
      · rw [if_pos hcb]
        exact iff_of_true rfl (by linarith)
      · rw [if_neg hcb]
        constructor
        · intro hstf
          have hfe : (ordAt s.orders j).filled = (ordAt s.orders j).size :=
            pB5.mp hstf
          exact absurd (by linarith : (ordAt s.orders j).filled
            + mq s.orders j a ≥ (ordAt s.orders j).size) hcb
        · intro hfe
          exact absurd (by linarith : (ordAt s.orders j).filled
            + mq s.orders j a ≥ (ordAt s.orders j).size) hcb
    · rcases eq_or_ne j a with rfl | hja
      · have e4p : (ordAt s1.orders j).price = (ordAt s.orders j).price := by rw [sp4]
        have e4sz : (ordAt s1.orders j).size = (ordAt s.orders j).size := by rw [sp4]
        have e4f : (ordAt s1.orders j).filled
            = (ordAt s.orders j).filled + mq s.orders b j := by rw [sp4]
        have e4st : (ordAt s1.orders j).status
            = (if (ordAt s.orders j).filled + mq s.orders b j ≥ (ordAt s.orders j).size
               then OrderStatus.filled else (ordAt s.orders j).status) := by rw [sp4]
        refine ⟨by rw [e4p]; exact pA1, by rw [e4sz]; exact pA2,
          by rw [e4f]; linarith, by rw [e4f, e4sz]; linarith, ?_⟩
        rw [e4st, e4f, e4sz]
        by_cases hca : (ordAt s.orders j).filled + mq s.orders b j
            ≥ (ordAt s.orders j).size
        · rw [if_pos hca]
          exact iff_of_true rfl (by linarith)
        · rw [if_neg hca]
          constructor
          · intro hstf
            have hfe : (ordAt s.orders j).filled = (ordAt s.orders j).size :=
              pA5.mp hstf
            exact absurd (by linarith : (ordAt s.orders j).filled
              + mq s.orders b j ≥ (ordAt s.orders j).size) hca
          · intro hfe
            exact absurd (by linarith : (ordAt s.orders j).filled
              + mq s.orders b j ≥ (ordAt s.orders j).size) hca
      · rw [sp5 j hjb hja]
        exact regOK_index s hro hj
  · intro k hk
    rcases List.mem_append.mp hk with hkb | hks
    · have hkq : k ∈ s.buyQ := hsub_b.subset hkb
      have hknea : k ≠ a := by
        intro e
        have h1 := hwf.buySide k hkq
        rw [e, hwf.sellSide a (by rw [ha]; exact List.mem_cons_self a arest)] at h1
        exact Side.noConfusion h1
      rcases eq_or_ne k b with rfl | hkneb
      · have hncb : ¬ ((ordAt s.orders k).filled + mq s.orders k a
            ≥ (ordAt s.orders k).size) := by
          intro hcb
          rw [sp6, if_pos hcb] at hkb
          have hnd := hwf.buyNodup
          rw [hb] at hnd
          exact (List.nodup_cons.mp hnd).1 hkb
        have e3st : (ordAt s1.orders k).status
            = (if (ordAt s.orders k).filled + mq s.orders k a ≥ (ordAt s.orders k).size
               then OrderStatus.filled else (ordAt s.orders k).status) := by rw [sp3]
        rw [e3st, if_neg hncb]
        exact hqo k (List.mem_append.mpr (Or.inl hkq))
      · rw [sp5 k hkneb hknea]
        exact hqo k (List.mem_append.mpr (Or.inl hkq))
    · have hkq : k ∈ s.sellQ := hsub_a.subset hks
      have hkneb : k ≠ b := by
        intro e
        have h1 := hwf.sellSide k hkq
        rw [e, hwf.buySide b (by rw [hb]; exact List.mem_cons_self b brest)] at h1
        exact Side.noConfusion h1
      rcases eq_or_ne k a with rfl | hknea
      · have hnca : ¬ ((ordAt s.orders k).filled + mq s.orders b k
            ≥ (ordAt s.orders k).size) := by
          intro hca
          rw [sp7, if_pos hca] at hks
          have hnd := hwf.sellNodup
          rw [ha] at hnd
          exact (List.nodup_cons.mp hnd).1 hks
        have e4st : (ordAt s1.orders k).status
            = (if (ordAt s.orders k).filled + mq s.orders b k ≥ (ordAt s.orders k).size
               then OrderStatus.filled else (ordAt s.orders k).status) := by rw [sp4]
        rw [e4st, if_neg hnca]
        exact hqo k (List.mem_append.mpr (Or.inr hkq))
      · rw [sp5 k hkneb hknea]
        exact hqo k (List.mem_append.mpr (Or.inr hkq))


theorem matchLoop_ok : ∀ (fuel : Nat) (s : SimExchange), WF s → RegOK s →
    QueuedOpen s → RegOK (matchLoop fuel s) ∧ QueuedOpen (matchLoop fuel s)
  | 0, _, _, hro, hqo => ⟨hro, hqo⟩
  | fuel + 1, s, hwf, hro, hqo => by
    cases hms : matchStep s with
    | none =>
      have heq : matchLoop (fuel + 1) s = s := by simp only [matchLoop, hms]
      rw [heq]
      exact ⟨hro, hqo⟩
    | some s1 =>
      obtain ⟨hwf1, -, -, -, -, -⟩ := matchStep_preserves s s1 hwf hms
      obtain ⟨hro1, hqo1⟩ := matchStep_ok s s1 hwf hro hqo hms
      have heq : matchLoop (fuel + 1) s = matchLoop fuel s1 := by
        simp only [matchLoop, hms]
      rw [heq]
      exact matchLoop_ok fuel s1 hwf1 hro1 hqo1

theorem ordAt_default_status (l : List Order) {i : Nat} (h : l.length ≤ i) :
    (ordAt l i).status = .«open» := by
  rw [ordAt, List.getD_eq_default l default h]
  rfl

theorem not_mem_eraseIdx_of_nodup :
    ∀ (l : List Nat) (p i : Nat), l.Nodup → l.get? p = some i →
      i ∉ l.eraseIdx p
  | [], p, i, _, h => by simp at h
  | x :: rest, 0, i, hnd, h => by
    have hx : x = i := by simpa using h
    subst hx
    simpa [List.eraseIdx] using (List.nodup_cons.mp hnd).1
  | x :: rest, p + 1, i, hnd, h => by
    have h1 : rest.get? p = some i := by simpa using h
    intro hmem
    have hmem1 : i ∈ x :: rest.eraseIdx p := by simpa [List.eraseIdx] using hmem
    rcases List.mem_cons.mp hmem1 with rfl | hmem2
    · exact (List.nodup_cons.mp hnd).1 (List.get?_mem h1)
    · exact not_mem_eraseIdx_of_nodup rest p i (List.nodup_cons.mp hnd).2 h1 hmem2

theorem place_limit_ok (s : SimExchange) (side : Side) (price size : ℚ)
    (cid : String) (hwf : WF s) (hro : RegOK s) (hqo : QueuedOpen s)
    (hp : 0 < price) (hs : 0 < size) :
    RegOK (place_limit s side price size cid) ∧
    QueuedOpen (place_limit s side price size cid) := by
  have hwf2 := WF_place_aux s side price size cid hwf
  set ord : Order := { id := cid, side := side, price := price, size := size } with hord
  set s2 := insertOrder { s with orders := s.orders ++ [ord] }
      side s.orders.length price with hs2
  have hpl : place_limit s side price size cid = matchLoop (restCount s2) s2 := rfl
  have hor2 : s2.orders = s.orders ++ [ord] := by rw [hs2, orders_insertOrder]
  have hokord : OrderOK ord := by
    refine ⟨hp, hs, le_refl 0, le_of_lt hs, ?_⟩
    exact iff_of_false (fun hc => OrderStatus.noConfusion hc) (by simpa using ne_of_lt hs)
  have hro2 : RegOK s2 := by
    intro o ho
    rw [hor2] at ho
    rcases List.mem_append.mp ho with hol | honew
    · exact hro o hol
    · have : o = ord := by simpa using honew
      rw [this]
      exact hokord
  have hqo2 : QueuedOpen s2 := by
    have hgen : ∀ k, k = s.orders.length ∨ k ∈ s.buyQ ++ s.sellQ →
        (ordAt s2.orders k).status = .«open» := by
      intro k hk
      rw [hor2]
      rcases hk with rfl | hold
      · rw [ordAt_append_len]
      · rcases List.mem_append.mp hold with h1 | h1
        · rw [ordAt_append_lt s.orders ord (hwf.buyIdx k h1)]
          exact hqo k hold
        · rw [ordAt_append_lt s.orders ord (hwf.sellIdx k h1)]
          exact hqo k hold
    intro k hk
    cases side with
    | buy =>
      have hk2 : k ∈ insertScan (s.orders ++ [ord]) .buy s.orders.length price s.buyQ
          ++ s.sellQ := hk
      rcases List.mem_append.mp hk2 with h1 | h1
      · rcases (mem_insertScan _ _ _ _ _ _).mp h1 with rfl | hold
        · exact hgen _ (Or.inl rfl)
        · exact hgen k (Or.inr (List.mem_append.mpr (Or.inl hold)))
      · exact hgen k (Or.inr (List.mem_append.mpr (Or.inr h1)))
    | sell =>
      have hk2 : k ∈ s.buyQ
          ++ insertScan (s.orders ++ [ord]) .sell s.orders.length price s.sellQ := hk
      rcases List.mem_append.mp hk2 with h1 | h1
      · exact hgen k (Or.inr (List.mem_append.mpr (Or.inl h1)))
      · rcases (mem_insertScan _ _ _ _ _ _).mp h1 with rfl | hold
        · exact hgen _ (Or.inl rfl)
        · exact hgen k (Or.inr (List.mem_append.mpr (Or.inr hold)))
  rw [hpl]
  exact matchLoop_ok (restCount s2) s2 hwf2 hro2 hqo2

theorem cancel_ok (s : SimExchange) (oid : String) (hwf : WF s) (hro : RegOK s)
    (hqo : QueuedOpen s) : RegOK (cancel s oid) ∧ QueuedOpen (cancel s oid) := by
  cases hfb : findCancel s.orders oid s.buyQ with
  | some pi =>
    obtain ⟨p, i⟩ := pi
    obtain ⟨hget, hid, hst⟩ := findCancel_some_elim s.orders oid s.buyQ p i hfb
    have himem : i ∈ s.buyQ := List.get?_mem hget
    have hil : i < s.orders.length := hwf.buyIdx i himem
    rw [cancel_found_buy s oid p i hfb]
    constructor
    · refine regOK_of_index _ ?_
      intro j hj
      have hj2 : j < (setStatus s.orders i .cancelled).length := hj
      rw [length_setStatus] at hj2
      show OrderOK (ordAt (setStatus s.orders i .cancelled) j)
      rcases eq_or_ne j i with rfl | hji
      · rw [ordAt_setStatus_self s.orders .cancelled hj2]
        obtain ⟨p1, p2, p3, p4, p5⟩ := regOK_index s hro hj2
        refine ⟨p1, p2, p3, p4, ?_⟩
        have hne2 : (ordAt s.orders j).filled ≠ (ordAt s.orders j).size := by
          intro he
          have hc := p5.mpr he
          rw [hst] at hc
          exact OrderStatus.noConfusion hc
        exact iff_of_false (fun hc => OrderStatus.noConfusion hc) hne2
      · rw [ordAt_setStatus_ne s.orders .cancelled (Ne.symm hji)]
        exact regOK_index s hro hj2
    · intro k hk
      have hk2 : k ∈ s.buyQ.eraseIdx p ++ s.sellQ := hk
      show (ordAt (setStatus s.orders i .cancelled) k).status = .«open»
      rcases List.mem_append.mp hk2 with hkb | hks
      · have hkq : k ∈ s.buyQ := (List.eraseIdx_sublist s.buyQ p).subset hkb
        have hki : i ≠ k := by
          intro e
          rw [← e] at hkb
          exact not_mem_eraseIdx_of_nodup s.buyQ p i hwf.buyNodup hget hkb
        rw [ordAt_setStatus_ne s.orders .cancelled hki]
        exact hqo k (List.mem_append.mpr (Or.inl hkq))
      · have hki : i ≠ k := by
          intro e
          have h1 := hwf.sellSide k hks
          rw [← e, hwf.buySide i himem] at h1
          exact Side.noConfusion h1
        rw [ordAt_setStatus_ne s.orders .cancelled hki]
        exact hqo k (List.mem_append.mpr (Or.inr hks))
  | none =>
    cases hfs : findCancel s.orders oid s.sellQ with
    | some pi =>
      obtain ⟨p, i⟩ := pi
      obtain ⟨hget, hid, hst⟩ := findCancel_some_elim s.orders oid s.sellQ p i hfs
      have himem : i ∈ s.sellQ := List.get?_mem hget
      have hil : i < s.orders.length := hwf.sellIdx i himem
      rw [cancel_found_sell s oid p i hfb hfs]
      constructor
      · refine regOK_of_index _ ?_
        intro j hj
        have hj2 : j < (setStatus s.orders i .cancelled).length := hj
        rw [length_setStatus] at hj2
        show OrderOK (ordAt (setStatus s.orders i .cancelled) j)
        rcases eq_or_ne j i with rfl | hji
        · rw [ordAt_setStatus_self s.orders .cancelled hj2]
          obtain ⟨p1, p2, p3, p4, p5⟩ := regOK_index s hro hj2
          refine ⟨p1, p2, p3, p4, ?_⟩
          have hne2 : (ordAt s.orders j).filled ≠ (ordAt s.orders j).size := by
            intro he
            have hc := p5.mpr he
            rw [hst] at hc
            exact OrderStatus.noConfusion hc
          exact iff_of_false (fun hc => OrderStatus.noConfusion hc) hne2
        · rw [ordAt_setStatus_ne s.orders .cancelled (Ne.symm hji)]
          exact regOK_index s hro hj2
      · intro k hk
        have hk2 : k ∈ s.buyQ ++ s.sellQ.eraseIdx p := hk
        show (ordAt (setStatus s.orders i .cancelled) k).status = .«open»
        rcases List.mem_append.mp hk2 with hkb | hks
        · have hki : i ≠ k := by
            intro e
            have h1 := hwf.buySide k hkb
            rw [← e, hwf.sellSide i himem] at h1
            exact Side.noConfusion h1
          rw [ordAt_setStatus_ne s.orders .cancelled hki]
          exact hqo k (List.mem_append.mpr (Or.inl hkb))
        · have hkq : k ∈ s.sellQ := (List.eraseIdx_sublist s.sellQ p).subset hks
          have hki : i ≠ k := by
            intro e
            rw [← e] at hks
            exact not_mem_eraseIdx_of_nodup s.sellQ p i hwf.sellNodup hget hks
          rw [ordAt_setStatus_ne s.orders .cancelled hki]
          exact hqo k (List.mem_append.mpr (Or.inr hkq))
    | none =>
      rw [cancel_not_found s oid hfb hfs]
      exact ⟨hro, hqo⟩

theorem run_invP (ops : List Op) (hpos : ∀ op ∈ ops, PosOp op) :
    WF (run ops) ∧ NoCross (run ops) ∧ RegOK (run ops) ∧ QueuedOpen (run ops) := by
  refine foldl_inv_pos
    (fun s => WF s ∧ NoCross s ∧ RegOK s ∧ QueuedOpen s) ?_ ops {} hpos
    ⟨WF_empty, NoCross_empty, by intro o ho; exact absurd ho (by simp),
     by intro k hk; exact absurd hk (by simp)⟩
  rintro s op hop ⟨hwf, hnc, hro, hqo⟩
  cases op with
  | place side price size cid =>
    obtain ⟨h1, h2, -⟩ := place_limit_spec s side price size cid hwf
    obtain ⟨h3, h4⟩ := place_limit_ok s side price size cid hwf hro hqo hop.1 hop.2
    exact ⟨h1, h2, h3, h4⟩
  | cancel oid =>
    obtain ⟨h1, h2, -, -⟩ := cancel_preserves s oid hwf hnc
    obtain ⟨h3, h4⟩ := cancel_ok s oid hwf hro hqo
    exact ⟨h1, h2, h3, h4⟩


/-!
## Untouched orders and `cancel` algebra
-/

theorem matchStep_untouched (s s1 : SimExchange) (hwf : WF s)
    (h : matchStep s = some s1) (k : Nat) (hkb : k ∉ s.buyQ)
    (hks : k ∉ s.sellQ) :
    ordAt s1.orders k = ordAt s.orders k ∧ k ∉ s1.buyQ ∧ k ∉ s1.sellQ := by
  obtain ⟨b, brest, a, arest, hb, ha, hlt, hpost⟩ := matchStep_some_elim s s1 h
  have hbl : b < s.orders.length :=
    hwf.buyIdx b (by rw [hb]; exact List.mem_cons_self b brest)
  have hal : a < s.orders.length :=
    hwf.sellIdx a (by rw [ha]; exact List.mem_cons_self a arest)
  have hne : b ≠ a := hwf.head_ne s hb ha
  obtain ⟨-, -, -, -, sp5, sp6, sp7, -⟩ :=
    matchPost_spec s.orders b a brest arest s.trades hbl hal hne
  rw [← hpost] at sp5 sp6 sp7
  have hknb : k ≠ b := fun e => hkb (by rw [hb, e]; exact List.mem_cons_self b brest)
  have hkna : k ≠ a := fun e => hks (by rw [ha, e]; exact List.mem_cons_self a arest)
  have hsb : s1.buyQ.Sublist s.buyQ := by
    rw [sp6, hb]
    split
    · exact List.sublist_cons_self b brest
    · exact List.Sublist.refl _
  have hsa : s1.sellQ.Sublist s.sellQ := by
    rw [sp7, ha]
    split
    · exact List.sublist_cons_self a arest
    · exact List.Sublist.refl _
  exact ⟨sp5 k hknb hkna, fun hm => hkb (hsb.subset hm),
    fun hm => hks (hsa.subset hm)⟩

theorem matchLoop_untouched : ∀ (fuel : Nat) (s : SimExchange) (k : Nat),
    WF s → k ∉ s.buyQ → k ∉ s.sellQ →
    ordAt (matchLoop fuel s).orders k = ordAt s.orders k
  | 0, _, _, _, _, _ => rfl
  | fuel + 1, s, k, hwf, hkb, hks => by
    cases hms : matchStep s with
    | none =>
      have heq : matchLoop (fuel + 1) s = s := by simp only [matchLoop, hms]
      rw [heq]
    | some s1 =>
      obtain ⟨hwf1, -, -, -, -, -⟩ := matchStep_preserves s s1 hwf hms
      obtain ⟨he, hkb1, hks1⟩ := matchStep_untouched s s1 hwf hms k hkb hks
      have heq : matchLoop (fuel + 1) s = matchLoop fuel s1 := by
        simp only [matchLoop, hms]
      rw [heq, matchLoop_untouched fuel s1 k hwf1 hkb1 hks1, he]

theorem place_limit_untouched (s : SimExchange) (side : Side) (price size : ℚ)
    (cid : String) (hwf : WF s) (k : Nat) (hk : k < s.orders.length)
    (hkb : k ∉ s.buyQ) (hks : k ∉ s.sellQ) :
    ordAt (place_limit s side price size cid).orders k = ordAt s.orders k := by
  have hwf2 := WF_place_aux s side price size cid hwf
  set ord : Order := { id := cid, side := side, price := price, size := size } with hord
  set s2 := insertOrder { s with orders := s.orders ++ [ord] }
      side s.orders.length price with hs2
  have hpl : place_limit s side price size cid = matchLoop (restCount s2) s2 := rfl
  have hor2 : s2.orders = s.orders ++ [ord] := by rw [hs2, orders_insertOrder]
  have hkn : k ≠ s.orders.length := by omega
  have hkb2 : k ∉ s2.buyQ := by
    cases side with
    | buy =>
      intro hm
      have hm2 : k ∈ insertScan (s.orders ++ [ord]) .buy s.orders.length price
          s.buyQ := hm
      rcases (mem_insertScan _ _ _ _ _ _).mp hm2 with he | hold
      · exact hkn he
      · exact hkb hold
    | sell =>
      intro hm
      exact hkb hm
  have hks2 : k ∉ s2.sellQ := by
    cases side with
    | buy =>
      intro hm
      exact hks hm
    | sell =>
      intro hm
      have hm2 : k ∈ insertScan (s.orders ++ [ord]) .sell s.orders.length price
          s.sellQ := hm
      rcases (mem_insertScan _ _ _ _ _ _).mp hm2 with he | hold
      · exact hkn he
      · exact hks hold
  rw [hpl, matchLoop_untouched (restCount s2) s2 k hwf2 hkb2 hks2, hor2,
    ordAt_append_lt s.orders ord hk]

theorem cancel_untouched (s : SimExchange) (oid : String) (k : Nat)
    (hterm : (ordAt s.orders k).status ≠ .«open») :
    ordAt (cancel s oid).orders k = ordAt s.orders k := by
  cases hfb : findCancel s.orders oid s.buyQ with
  | some pi =>
    obtain ⟨p, i⟩ := pi
    obtain ⟨-, -, hst⟩ := findCancel_some_elim s.orders oid s.buyQ p i hfb
    have hik : i ≠ k := fun e => hterm (by rw [← e]; exact hst)
    rw [cancel_found_buy s oid p i hfb]
    show ordAt (setStatus s.orders i .cancelled) k = ordAt s.orders k
    exact ordAt_setStatus_ne s.orders .cancelled hik
  | none =>
    cases hfs : findCancel s.orders oid s.sellQ with
    | some pi =>
      obtain ⟨p, i⟩ := pi
      obtain ⟨-, -, hst⟩ := findCancel_some_elim s.orders oid s.sellQ p i hfs
      have hik : i ≠ k := fun e => hterm (by rw [← e]; exact hst)
      rw [cancel_found_sell s oid p i hfb hfs]
      show ordAt (setStatus s.orders i .cancelled) k = ordAt s.orders k
      exact ordAt_setStatus_ne s.orders .cancelled hik
    | none =>
      rw [cancel_not_found s oid hfb hfs]

theorem cancel_eq_self_of_terminal (s : SimExchange) (oid : String) (hwf : WF s)
    (h : ∀ o ∈ s.orders, o.id = oid → o.status ≠ .«open») :
    cancel s oid = s := by
  have hb : findCancel s.orders oid s.buyQ = none := by
    apply findCancel_none
    intro i hi hc
    exact h (ordAt s.orders i) (ordAt_mem s.orders (hwf.buyIdx i hi)) hc.1 hc.2
  have hs2 : findCancel s.orders oid s.sellQ = none := by
    apply findCancel_none
    intro i hi hc
    exact h (ordAt s.orders i) (ordAt_mem s.orders (hwf.sellIdx i hi)) hc.1 hc.2
  exact cancel_not_found s oid hb hs2

theorem uniqueIds_eq (s : SimExchange) (huid : UniqueIds s) {i j : Nat}
    (hi : i < s.orders.length) (hj : j < s.orders.length)
    (he : (ordAt s.orders i).id = (ordAt s.orders j).id) : i = j := by
  have hi2 : i < (s.orders.map Order.id).length := by simpa using hi
  have hj2 : j < (s.orders.map Order.id).length := by simpa using hj
  have hgi : (s.orders.map Order.id).get ⟨i, hi2⟩ = (ordAt s.orders i).id := by
    rw [List.get_map]
    congr 1
    rw [ordAt, List.getD_eq_getElem s.orders default hi]
    rfl
  have hgj : (s.orders.map Order.id).get ⟨j, hj2⟩ = (ordAt s.orders j).id := by
    rw [List.get_map]
    congr 1
    rw [ordAt, List.getD_eq_getElem s.orders default hj]
    rfl
  have hge : (s.orders.map Order.id).get ⟨i, hi2⟩
      = (s.orders.map Order.id).get ⟨j, hj2⟩ := by
    rw [hgi, hgj, he]
  have hfin : (⟨i, hi2⟩ : Fin (s.orders.map Order.id).length) = ⟨j, hj2⟩ :=
    (List.Nodup.get_inj_iff huid).mp hge
  exact congrArg Fin.val hfin


theorem cancel_idem (s : SimExchange) (oid : String) (hwf : WF s)
    (hnc : NoCross s) (huid : UniqueIds s) :
    cancel (cancel s oid) oid = cancel s oid := by
  cases hfb : findCancel s.orders oid s.buyQ with
  | some pi =>
    obtain ⟨p, i⟩ := pi
    obtain ⟨hget, hid, hst⟩ := findCancel_some_elim s.orders oid s.buyQ p i hfb
    have himem : i ∈ s.buyQ := List.get?_mem hget
    have hil : i < s.orders.length := hwf.buyIdx i himem
    rw [cancel_found_buy s oid p i hfb]
    apply cancel_eq_self_of_terminal _ oid (cancel_buy_state s p i hwf hnc).1
    intro o ho hoid
    have ho2 : o ∈ setStatus s.orders i .cancelled := ho
    obtain ⟨j, hj, hje⟩ := List.mem_iff_getElem.mp ho2
    have hj2 : j < s.orders.length := by
      rw [length_setStatus] at hj
      exact hj
    have hoe : o = ordAt (setStatus s.orders i .cancelled) j := by
      rw [ordAt, List.getD_eq_getElem _ default hj, hje]
    rcases eq_or_ne j i with heq | hji
    · rw [hoe, heq, ordAt_setStatus_self s.orders .cancelled hil]
      exact fun hc => OrderStatus.noConfusion hc
    · rw [hoe, ordAt_setStatus_ne s.orders .cancelled (Ne.symm hji)] at hoid
      exact absurd (uniqueIds_eq s huid hj2 hil (by rw [hoid, hid])) hji
  | none =>
    cases hfs : findCancel s.orders oid s.sellQ with
    | some pi =>
      obtain ⟨p, i⟩ := pi
      obtain ⟨hget, hid, hst⟩ := findCancel_some_elim s.orders oid s.sellQ p i hfs
      have himem : i ∈ s.sellQ := List.get?_mem hget
      have hil : i < s.orders.length := hwf.sellIdx i himem
      rw [cancel_found_sell s oid p i hfb hfs]
      apply cancel_eq_self_of_terminal _ oid (cancel_sell_state s p i hwf hnc).1
      intro o ho hoid
      have ho2 : o ∈ setStatus s.orders i .cancelled := ho
      obtain ⟨j, hj, hje⟩ := List.mem_iff_getElem.mp ho2
      have hj2 : j < s.orders.length := by
        rw [length_setStatus] at hj
        exact hj
      have hoe : o = ordAt (setStatus s.orders i .cancelled) j := by
        rw [ordAt, List.getD_eq_getElem _ default hj, hje]
      rcases eq_or_ne j i with heq | hji
      · rw [hoe, heq, ordAt_setStatus_self s.orders .cancelled hil]
        exact fun hc => OrderStatus.noConfusion hc
      · rw [hoe, ordAt_setStatus_ne s.orders .cancelled (Ne.symm hji)] at hoid
        exact absurd (uniqueIds_eq s huid hj2 hil (by rw [hoid, hid])) hji
    | none =>
      have hnf := cancel_not_found s oid hfb hfs
      rw [hnf, hnf]


/-- The concrete crossed book is structurally well-formed. -/
theorem WF_crossedBook : WF crossedBook :=
  ⟨by decide, by decide, by decide, by decide, by decide, by decide,
   by decide, by decide⟩

/-!
## The claims
-/

/-- C5: from an empty book, `place_limit(BUY, 101, 2, "b1")` then
`place_limit(SELL, 100, 1, "s1")` produces exactly one trade with price
`100.5 = 201/2` and size 1; afterwards `b1` has `filled = 1`, status
`"open"`, and rests at the head of the BUY queue with remaining 1, while
`s1` is `"filled"` and sits in neither queue (the SELL queue is empty). -/
theorem C5_holds :
    (run [Op.place .buy 101 2 "b1", Op.place .sell 100 1 "s1"]).trades
      = [{ price := 201 / 2, size := 1 }] ∧
    ordAt (run [Op.place .buy 101 2 "b1", Op.place .sell 100 1 "s1"]).orders 0
      = { id := "b1", side := .buy, price := 101, size := 2, filled := 1,
          status := .«open» } ∧
    (run [Op.place .buy 101 2 "b1", Op.place .sell 100 1 "s1"]).buyQ = [0] ∧
    (ordAt (run [Op.place .buy 101 2 "b1", Op.place .sell 100 1 "s1"]).orders 0).size
      - (ordAt (run [Op.place .buy 101 2 "b1", Op.place .sell 100 1 "s1"]).orders 0).filled
      = 1 ∧
    ordAt (run [Op.place .buy 101 2 "b1", Op.place .sell 100 1 "s1"]).orders 1
      = { id := "s1", side := .sell, price := 100, size := 1, filled := 1,
          status := .filled } ∧
    (run [Op.place .buy 101 2 "b1", Op.place .sell 100 1 "s1"]).sellQ = [] := by
  norm_num [run, applyOp, place_limit, insertOrder, insertScan, matchLoop,
    matchStep, matchPost, setStatus, bumpFill, ordAt, restCount, cmpPrice]

/-- C1 (counterexample): insertion is NOT stable FIFO at equal prices.
After `place_limit(BUY, 100, 1, "a")` then `place_limit(BUY, 100, 1, "b")`,
the buy queue is `[1, 0]`: the head is the later order `"b"`, which has the
same price as — and arrived after — `"a"`.  The newly inserted order has
jumped ahead of an equal-priced, earlier-arrived order, refuting the claim
as stated. -/
theorem C1_counterexample :
    (run [Op.place .buy 100 1 "a", Op.place .buy 100 1 "b"]).buyQ = [1, 0] ∧
    (ordAt (run [Op.place .buy 100 1 "a", Op.place .buy 100 1 "b"]).orders 1).id = "b" ∧
    (ordAt (run [Op.place .buy 100 1 "a", Op.place .buy 100 1 "b"]).orders 0).id = "a" ∧
    (ordAt (run [Op.place .buy 100 1 "a", Op.place .buy 100 1 "b"]).orders 1).price
      = (ordAt (run [Op.place .buy 100 1 "a", Op.place .buy 100 1 "b"]).orders 0).price := by
  decide

/-- C1 (amended): insertion maintains price priority, but ties are LIFO,
not FIFO.  (i) In every reachable state the head of the BUY queue has the
maximum price of the queue and the head of the SELL queue the minimum, and
(ii) `_insert` places the new order index `n` immediately after the prefix
of strictly better-priced orders (`cmp` is strict), i.e. before every
equal-priced, earlier-arrived order. -/
theorem C1_amended_holds : ∀ (ops : List Op),
    (∀ b j, (run ops).buyQ.head? = some b → j ∈ (run ops).buyQ →
      (ordAt (run ops).orders j).price ≤ (ordAt (run ops).orders b).price) ∧
    (∀ a k, (run ops).sellQ.head? = some a → k ∈ (run ops).sellQ →
      (ordAt (run ops).orders a).price ≤ (ordAt (run ops).orders k).price) ∧
    (∀ (ords : List Order) (side : Side) (n : Nat) (price : ℚ) (q : List Nat),
      insertScan ords side n price q
        = q.takeWhile (fun i => cmpPrice side (ordAt ords i).price price)
          ++ n :: q.dropWhile (fun i => cmpPrice side (ordAt ords i).price price)) := by
  intro ops
  obtain ⟨hwf, -, -⟩ := run_inv0 ops
  refine ⟨?_, ?_, ?_⟩
  · intro b j hb hj
    exact head_best (run ops).orders .buy (run ops).buyQ hwf.buySorted hb hj
  · intro a k ha hk
    exact head_best (run ops).orders .sell (run ops).sellQ hwf.sellSorted ha hk
  · intro ords side n price q
    exact insertScan_eq ords side n price q

/-- C1 witness: the amended theorem applied to a concrete one-order book. -/
theorem C1_witness :
    (ordAt (run [Op.place .buy 100 1 "a"]).orders 0).price
      ≤ (ordAt (run [Op.place .buy 100 1 "a"]).orders 0).price :=
  (C1_amended_holds [Op.place .buy 100 1 "a"]).1 0 0 (by decide) (by decide)

/-- C3: in every state reachable by `place_limit` and `cancel` calls from a
fresh `SimExchange`, it is never the case that both queues are non-empty
with the head BUY price at or above the head SELL price: whenever both
heads exist, `best_bid.price < best_ask.price` — matching ran to
quiescence. -/
theorem C3_holds : ∀ (ops : List Op) (b a : Nat),
    (run ops).buyQ.head? = some b → (run ops).sellQ.head? = some a →
    (ordAt (run ops).orders b).price < (ordAt (run ops).orders a).price :=
  fun ops b a hb ha => (run_inv0 ops).2.1 b hb a ha

/-- C3 witness: the no-cross property at a concrete two-order book. -/
theorem C3_witness :
    (ordAt (run [Op.place .buy 100 1 "b1", Op.place .sell 101 1 "s1"]).orders 0).price
      < (ordAt (run [Op.place .buy 100 1 "b1", Op.place .sell 101 1 "s1"]).orders 1).price :=
  C3_holds [Op.place .buy 100 1 "b1", Op.place .sell 101 1 "s1"] 0 1
    (by decide) (by decide)

/-- C10: the matching loop terminates.  From any well-formed state,
(i) each iteration on which a cross exists (`matchStep` fires) strictly
decreases the total number of resting orders, and (ii) running the loop
with fuel equal to that number (exactly what `place_limit` supplies)
reaches quiescence: any further iterations leave the state unchanged, so
the fuelled loop equals the unbounded Python `while` loop. -/
theorem C10_holds : ∀ s : SimExchange, WF s →
    (∀ s1, matchStep s = some s1 → restCount s1 < restCount s) ∧
    (∀ fuel, matchLoop fuel (matchLoop (restCount s) s) = matchLoop (restCount s) s) := by
  intro s hwf
  constructor
  · intro s1 hms
    exact (matchStep_preserves s s1 hwf hms).2.1
  · intro fuel
    exact matchLoop_id_of_noCross fuel _
      (matchLoop_wf_noCross (restCount s) s hwf le_rfl).2

/-- C10 witness: one match iteration on the concrete crossed book strictly
shrinks the resting-order count. -/
theorem C10_witness :
    restCount (matchPost crossedBook.orders 0 1 [] [] []) < restCount crossedBook :=
  (C10_holds crossedBook WF_crossedBook).1 _ rfl


/-- C2 (counterexample): the plain sum of trade sizes does NOT equal the
sum of `filled` across all orders.  After `BUY 100×1` then `SELL 100×1`
there is one trade of size 1, but `filled` sums to 2 (both participants
were filled by 1). -/
theorem C2_counterexample :
    tradeSum (run [Op.place .buy 100 1 "b1", Op.place .sell 100 1 "s1"]).trades = 1 ∧
    filledSum (run [Op.place .buy 100 1 "b1", Op.place .sell 100 1 "s1"]).orders = 2 ∧
    (1 : ℚ) ≠ 2 := by
  refine ⟨?_, ?_, by norm_num⟩ <;>
    norm_num [run, applyOp, place_limit, insertOrder, insertScan, matchLoop,
      matchStep, matchPost, setStatus, bumpFill, ordAt, restCount, cmpPrice,
      tradeSum, filledSum]

/-- C2 (amended): fill conservation holds with a factor of two — in every
reachable state, twice the sum of trade sizes equals the sum of `filled`
over all orders ever created; and each single match iteration appends
exactly one trade whose size is the minimum of the two head orders'
remaining sizes (`size - filled`) at match time, at the midpoint price,
and increments both participants' `filled` by exactly that quantity. -/
theorem C2_amended_holds :
    (∀ ops : List Op,
      2 * tradeSum (run ops).trades = filledSum (run ops).orders) ∧
    (∀ s s1 : SimExchange, WF s → matchStep s = some s1 →
      ∃ b brest a arest, s.buyQ = b :: brest ∧ s.sellQ = a :: arest ∧
        s1.trades = s.trades
          ++ [{ price := ((ordAt s.orders b).price + (ordAt s.orders a).price) / 2,
                size := min ((ordAt s.orders b).size - (ordAt s.orders b).filled)
                  ((ordAt s.orders a).size - (ordAt s.orders a).filled) }] ∧
        (ordAt s1.orders b).filled = (ordAt s.orders b).filled
          + min ((ordAt s.orders b).size - (ordAt s.orders b).filled)
              ((ordAt s.orders a).size - (ordAt s.orders a).filled) ∧
        (ordAt s1.orders a).filled = (ordAt s.orders a).filled
          + min ((ordAt s.orders b).size - (ordAt s.orders b).filled)
              ((ordAt s.orders a).size - (ordAt s.orders a).filled)) := by
  constructor
  · intro ops
    exact (run_inv0 ops).2.2
  · intro s s1 hwf hms
    obtain ⟨b, brest, a, arest, hb, ha, hlt, hpost⟩ := matchStep_some_elim s s1 hms
    have hbl : b < s.orders.length :=
      hwf.buyIdx b (by rw [hb]; exact List.mem_cons_self b brest)
    have hal : a < s.orders.length :=
      hwf.sellIdx a (by rw [ha]; exact List.mem_cons_self a arest)
    have hne : b ≠ a := hwf.head_ne s hb ha
    obtain ⟨-, sp2, sp3, sp4, -, -, -, -⟩ :=
      matchPost_spec s.orders b a brest arest s.trades hbl hal hne
    rw [← hpost] at sp2 sp3 sp4
    have e3f : (ordAt s1.orders b).filled
        = (ordAt s.orders b).filled + mq s.orders b a := by rw [sp3]
    have e4f : (ordAt s1.orders a).filled
        = (ordAt s.orders a).filled + mq s.orders b a := by rw [sp4]
    exact ⟨b, brest, a, arest, hb, ha, sp2, e3f, e4f⟩

/-- C2 witness: conservation on a concrete run, and the per-iteration trade
facts on the concrete crossed book. -/
theorem C2_witness :
    2 * tradeSum (run [Op.place .buy 100 1 "x"]).trades
      = filledSum (run [Op.place .buy 100 1 "x"]).orders ∧
    (∃ b brest a arest,
      crossedBook.buyQ = b :: brest ∧ crossedBook.sellQ = a :: arest ∧
      (matchPost crossedBook.orders 0 1 [] [] []).trades = crossedBook.trades
        ++ [{ price := ((ordAt crossedBook.orders b).price
                + (ordAt crossedBook.orders a).price) / 2,
              size := min ((ordAt crossedBook.orders b).size
                  - (ordAt crossedBook.orders b).filled)
                ((ordAt crossedBook.orders a).size
                  - (ordAt crossedBook.orders a).filled) }] ∧
      (ordAt (matchPost crossedBook.orders 0 1 [] [] []).orders b).filled
        = (ordAt crossedBook.orders b).filled
          + min ((ordAt crossedBook.orders b).size
              - (ordAt crossedBook.orders b).filled)
            ((ordAt crossedBook.orders a).size
              - (ordAt crossedBook.orders a).filled) ∧
      (ordAt (matchPost crossedBook.orders 0 1 [] [] []).orders a).filled
        = (ordAt crossedBook.orders a).filled
          + min ((ordAt crossedBook.orders b).size
              - (ordAt crossedBook.orders b).filled)
            ((ordAt crossedBook.orders a).size
              - (ordAt crossedBook.orders a).filled)) :=
  ⟨C2_amended_holds.1 [Op.place .buy 100 1 "x"],
   C2_amended_holds.2 crossedBook (matchPost crossedBook.orders 0 1 [] [] [])
     WF_crossedBook rfl⟩

/-- C4: with validated inputs (positive price and size on every
`place_limit`), every order ever created satisfies `0 ≤ filled ≤ size`,
has status `"filled"` exactly when `filled = size`, and a `"cancelled"`
order has `filled < size` (partial fill before cancel); moreover a
terminal status (`"filled"` or `"cancelled"`) is never changed by any
later `place_limit` or `cancel` operation. -/
theorem C4_holds : ∀ ops : List Op, (∀ op ∈ ops, PosOp op) →
    (∀ o ∈ (run ops).orders,
      (0 ≤ o.filled ∧ o.filled ≤ o.size) ∧
      (o.status = OrderStatus.filled ↔ o.filled = o.size) ∧
      (o.status = OrderStatus.cancelled → o.filled < o.size)) ∧
    (∀ op : Op, PosOp op → ∀ k,
      (ordAt (run ops).orders k).status ≠ .«open» →
      (ordAt (applyOp (run ops) op).orders k).status
        = (ordAt (run ops).orders k).status) := by
  intro ops hpos
  obtain ⟨hwf, hnc, hro, hqo⟩ := run_invP ops hpos
  constructor
  · intro o ho
    obtain ⟨p1, p2, p3, p4, p5⟩ := hro o ho
    refine ⟨⟨p3, p4⟩, p5, ?_⟩
    intro hc
    rcases lt_or_eq_of_le p4 with h | h
    · exact h
    · exfalso
      have hcf := p5.mpr h
      rw [hc] at hcf
      exact OrderStatus.noConfusion hcf
  · intro op hop k hterm
    have hkl : k < (run ops).orders.length := by
      by_contra hge
      exact hterm (ordAt_default_status _ (le_of_not_lt hge))
    have hkb : k ∉ (run ops).buyQ := fun hm =>
      hterm (hqo k (List.mem_append.mpr (Or.inl hm)))
    have hks : k ∉ (run ops).sellQ := fun hm =>
      hterm (hqo k (List.mem_append.mpr (Or.inr hm)))
    cases op with
    | place side price size cid =>
      show (ordAt (place_limit (run ops) side price size cid).orders k).status = _
      rw [place_limit_untouched (run ops) side price size cid hwf k hkl hkb hks]
    | cancel oid =>
      show (ordAt (cancel (run ops) oid).orders k).status = _
      rw [cancel_untouched (run ops) oid k hterm]

/-- C4 witness: the invariant applied to a concrete one-order run. -/
theorem C4_witness :
    (0 : ℚ) ≤ (ordAt (run [Op.place .buy 100 1 "b1"]).orders 0).filled :=
  ((C4_holds [Op.place .buy 100 1 "b1"] (by decide)).1
    (ordAt (run [Op.place .buy 100 1 "b1"]).orders 0) (by decide)).1.1

/-- C6: `cancel` is idempotent and a total no-op on missing or terminal
ids.  On any reachable state whose orders carry distinct client ids (the
spec's caller contract for `id`), cancelling the same id twice equals
cancelling it once; and if no order with the id is `"open"` (the id is
absent, or its order is already `"filled"`/`"cancelled"`), `cancel`
returns the state unchanged.  `cancel` is a total function, so no error
is raised. -/
theorem C6_holds : ∀ (ops : List Op) (oid : String), UniqueIds (run ops) →
    cancel (cancel (run ops) oid) oid = cancel (run ops) oid ∧
    ((∀ o ∈ (run ops).orders, o.id = oid → o.status ≠ .«open») →
      cancel (run ops) oid = run ops) := by
  intro ops oid huid
  obtain ⟨hwf, hnc, -⟩ := run_inv0 ops
  exact ⟨cancel_idem (run ops) oid hwf hnc huid,
    fun h => cancel_eq_self_of_terminal (run ops) oid hwf h⟩

/-- C6 witness: double-cancel of a live id, and cancel of an absent id, on
a concrete one-order run. -/
theorem C6_witness :
    cancel (cancel (run [Op.place .buy 100 1 "b1"]) "b1") "b1"
      = cancel (run [Op.place .buy 100 1 "b1"]) "b1" ∧
    cancel (run [Op.place .buy 100 1 "b1"]) "zzz" = run [Op.place .buy 100 1 "b1"] :=
  ⟨(C6_holds [Op.place .buy 100 1 "b1"] "b1" (by decide)).1,
   (C6_holds [Op.place .buy 100 1 "b1"] "zzz" (by decide)).2 (by decide)⟩

/-- C7: `LiveExchange` never escalates to real order submission.  The
constructor's `paper` flag defaults to `true`; `run_strategy`'s
`EX_PAPER` environment default also yields `true`; and when `paper` is
false, `connect()` raises the `RuntimeError` configuration error, which
propagates out of `run_strategy` before the trading loop is ever
entered. -/
theorem C7_holds : ∀ (key secret : String) (env : List (String × String))
    (loop : LiveExchange → Except PyError Unit),
    ({ key := key, secret := secret } : LiveExchange).paper = true ∧
    (env.lookup "EX_PAPER" = none → (liveFromEnv env).paper = true) ∧
    ((liveFromEnv env).paper = false →
      run_strategy_live env loop = Except.error liveConfigErr) := by
  intro key secret env loop
  refine ⟨rfl, ?_, ?_⟩
  · intro h
    show paperFromEnv env = true
    unfold paperFromEnv getenvDefault
    rw [h]
    decide
  · intro hp
    have hc : (liveFromEnv env).connect = .error liveConfigErr := by
      unfold LiveExchange.connect
      rw [hp]
      rfl
    show ((liveFromEnv env).connect >>= fun _ => loop (liveFromEnv env))
      = Except.error liveConfigErr
    rw [hc]
    rfl

/-- C7 witness: constructor default, and the refusal to start with
`EX_PAPER=false`. -/
theorem C7_witness :
    ({ key := "k", secret := "s" } : LiveExchange).paper = true ∧
    run_strategy_live [("EX_PAPER", "false")] (fun _ => Except.ok ())
      = Except.error liveConfigErr :=
  ⟨(C7_holds "k" "s" [] (fun _ => Except.ok ())).1,
   (C7_holds "k" "s" [("EX_PAPER", "false")] (fun _ => Except.ok ())).2.2
     (by decide)⟩

/-- C8 (counterexample): `place_limit` and `cancel` in non-paper mode fail
with the SAME exception class (`RuntimeError`) as the configuration error
raised by `connect()` in non-paper mode, so they are not distinguishable
from it by error kind, refuting the claim as stated. -/
theorem C8_counterexample :
    errClass (LiveExchange.place_limit ⟨"k", "s", false⟩ "BTC/USDT" .buy 1 1 "c")
      = errClass (LiveExchange.connect ⟨"k", "s", false⟩) ∧
    errClass (LiveExchange.cancel ⟨"k", "s", false⟩ "c")
      = errClass (LiveExchange.connect ⟨"k", "s", false⟩) ∧
    errClass (LiveExchange.connect ⟨"k", "s", false⟩) = some .runtimeError := by
  exact ⟨rfl, rfl, rfl⟩

/-- C8 (amended): every unimplemented venue operation fails immediately;
`get_top` fails with `NotImplementedError`, a different class from the
configuration error, while `place_limit` and `cancel` in non-paper mode
fail with `RuntimeError` exceptions distinguishable from the
configuration error only by message, not by class. -/
theorem C8_amended_holds : ∀ (ex : LiveExchange) (sym : String) (side : Side)
    (price size : ℚ) (cid oid : String),
    (ex.get_top sym
        = Except.error ⟨.notImplementedError, "Fill with venue top‑of‑book request"⟩ ∧
      ErrClass.notImplementedError ≠ liveConfigErr.cls) ∧
    (ex.paper = false →
      ex.place_limit sym side price size cid
          = Except.error ⟨.runtimeError, "Live order placement not implemented"⟩ ∧
      ex.cancel oid = Except.error ⟨.runtimeError, "Live cancel not implemented"⟩ ∧
      "Live order placement not implemented" ≠ liveConfigErr.msg ∧
      "Live cancel not implemented" ≠ liveConfigErr.msg) := by
  intro ex sym side price size cid oid
  refine ⟨⟨rfl, by decide⟩, ?_⟩
  intro hp
  unfold LiveExchange.place_limit LiveExchange.cancel
  rw [hp]
  exact ⟨rfl, rfl, by decide, by decide⟩

/-- C8 witness: the non-paper failures at a concrete `LiveExchange`. -/
theorem C8_amended_witness :
    LiveExchange.place_limit ⟨"k", "s", false⟩ "BTC/USDT" .buy 1 1 "c"
        = Except.error ⟨.runtimeError, "Live order placement not implemented"⟩ ∧
    LiveExchange.cancel ⟨"k", "s", false⟩ "o"
        = Except.error ⟨.runtimeError, "Live cancel not implemented"⟩ ∧
    "Live order placement not implemented" ≠ liveConfigErr.msg ∧
    "Live cancel not implemented" ≠ liveConfigErr.msg :=
  (C8_amended_holds ⟨"k", "s", false⟩ "BTC/USDT" .buy 1 1 "c" "o").2 rfl

/-- C9: for every book state, `get_top` returns the head BUY order's price
as `bid` and the head SELL order's price as `ask`; when a side is empty it
returns the fixed fallback `49999.5 = 99999/2` (bid) or
`50000.5 = 100001/2` (ask) rather than an absence indicator.  `get_top`
is a pure function of the state, so no state is mutated. -/
theorem C9_holds : ∀ s : SimExchange,
    (∀ b, s.buyQ.head? = some b → (get_top s).bid = (ordAt s.orders b).price) ∧
    (s.buyQ = [] → (get_top s).bid = (99999 : ℚ) / 2) ∧
    (∀ a, s.sellQ.head? = some a → (get_top s).ask = (ordAt s.orders a).price) ∧
    (s.sellQ = [] → (get_top s).ask = (100001 : ℚ) / 2) := by
  intro s
  refine ⟨?_, ?_, ?_, ?_⟩
  · intro b hb
    cases hq : s.buyQ with
    | nil =>
      rw [hq] at hb
      simp at hb
    | cons x rest =>
      rw [hq] at hb
      have hxb : x = b := by simpa using hb
      subst hxb
      simp [get_top, hq]
  · intro hq
    simp [get_top, hq]
  · intro a ha
    cases hq : s.sellQ with
    | nil =>
      rw [hq] at ha
      simp at ha
    | cons x rest =>
      rw [hq] at ha
      have hxa : x = a := by simpa using ha
      subst hxa
      simp [get_top, hq]
  · intro hq
    simp [get_top, hq]

/-- C9 witness: top of book on a concrete one-sided book. -/
theorem C9_witness :
    (get_top (run [Op.place .buy 100 1 "b1"])).bid
      = (ordAt (run [Op.place .buy 100 1 "b1"]).orders 0).price ∧
    (get_top (run [Op.place .buy 100 1 "b1"])).ask = (100001 : ℚ) / 2 :=
  ⟨(C9_holds (run [Op.place .buy 100 1 "b1"])).1 0 (by decide),
   (C9_holds (run [Op.place .buy 100 1 "b1"])).2.2.2 (by decide)⟩

end Spoof
